import Mathlib

/-!
Verification development for the `tdigest-ch` Rust crate (`src/lib.rs`).

Floating-point numbers (`f32`/`f64`) are shallowly embedded as exact extended
rationals: an `F` is NaN, an infinity of either sign, or an exact rational
value.  Arithmetic follows the IEEE-754 special-value rules (NaN propagation,
`∞ - ∞ = NaN`, `0 * ∞ = NaN`, division by zero, ...) but finite arithmetic is
exact (no rounding, no signed zero, and `f32`/`f64` casts are the identity).
Machine integers (`usize`) are `Nat`.  Fallible operations (Rust panics:
`unwrap` on an empty vector, integer division by zero) return `Option`.
-/

/-!
The rational arithmetic below is written with `Rat.divInt` (numerator /
denominator, normalizing) rather than `+ * / ⁻¹` because the latter are
`@[irreducible]` and the kernel could not evaluate concrete digests.  The
lemmas `qadd_eq`, `qneg_eq`, `qmul_eq`, `qdiv_eq` prove these are exactly the
field operations of `ℚ`.
-/

/-- Kernel-computable addition on `ℚ` (see `qadd_eq`). -/
def qadd (a b : ℚ) : ℚ := Rat.divInt (a.num * b.den + b.num * a.den) (a.den * b.den)

/-- Kernel-computable negation on `ℚ` (see `qneg_eq`). -/
def qneg (a : ℚ) : ℚ := Rat.divInt (-a.num) a.den

/-- Kernel-computable multiplication on `ℚ` (see `qmul_eq`). -/
def qmul (a b : ℚ) : ℚ := Rat.divInt (a.num * b.num) (a.den * b.den)

/-- Kernel-computable division on `ℚ` (see `qdiv_eq`). -/
def qdiv (a b : ℚ) : ℚ := Rat.divInt (a.num * b.den) (a.den * b.num)

/-- `(a.num : ℚ) = a * a.den`, the defining property of the reduced form. -/
theorem qnum_eq (a : ℚ) : (a.num : ℚ) = a * a.den := by
  have ha : (a.den : ℚ) ≠ 0 := by exact_mod_cast a.den_nz
  field_simp

theorem qadd_eq (a b : ℚ) : qadd a b = a + b := by
  have ha : (a.den : ℚ) ≠ 0 := by exact_mod_cast a.den_nz
  have hb : (b.den : ℚ) ≠ 0 := by exact_mod_cast b.den_nz
  rw [qadd, Rat.divInt_eq_div]
  push_cast
  rw [div_eq_iff (mul_ne_zero ha hb), qnum_eq, qnum_eq]
  ring

theorem qneg_eq (a : ℚ) : qneg a = -a := by
  have ha : (a.den : ℚ) ≠ 0 := by exact_mod_cast a.den_nz
  rw [qneg, Rat.divInt_eq_div]
  push_cast
  rw [div_eq_iff ha, qnum_eq]
  ring

theorem qmul_eq (a b : ℚ) : qmul a b = a * b := by
  have ha : (a.den : ℚ) ≠ 0 := by exact_mod_cast a.den_nz
  have hb : (b.den : ℚ) ≠ 0 := by exact_mod_cast b.den_nz
  rw [qmul, Rat.divInt_eq_div]
  push_cast
  rw [div_eq_iff (mul_ne_zero ha hb), qnum_eq, qnum_eq]
  ring

theorem qdiv_eq (a b : ℚ) : qdiv a b = a / b := by
  rcases eq_or_ne b 0 with rfl | hb
  · simp [qdiv]
  · have ha : (a.den : ℚ) ≠ 0 := by exact_mod_cast a.den_nz
    have hn : (b.num : ℚ) ≠ 0 := by exact_mod_cast Rat.num_ne_zero.mpr hb
    rw [qdiv, Rat.divInt_eq_div]
    push_cast
    rw [div_eq_iff (mul_ne_zero ha hn), div_mul_eq_mul_div, eq_comm,
      div_eq_iff hb, qnum_eq, qnum_eq]
    ring

/-- Exact model of an IEEE floating-point value: NaN, a signed infinity, or
an exact rational. -/
inductive F where
  | nan : F
  | negInf : F
  | posInf : F
  | val : ℚ → F
deriving DecidableEq, Repr

namespace F

/-- `is_nan`. -/
def isNaN : F → Bool
  | nan => true
  | _ => false

/-- `is_infinite`. -/
def isInfinite : F → Bool
  | negInf => true
  | posInf => true
  | _ => false

/-- IEEE negation. -/
def neg : F → F
  | nan => nan
  | negInf => posInf
  | posInf => negInf
  | val a => val (qneg a)

/-- IEEE addition: NaN propagates, opposite infinities give NaN. -/
def add : F → F → F
  | nan, _ => nan
  | _, nan => nan
  | posInf, negInf => nan
  | negInf, posInf => nan
  | posInf, _ => posInf
  | _, posInf => posInf
  | negInf, _ => negInf
  | _, negInf => negInf
  | val a, val b => val (qadd a b)

/-- IEEE subtraction, as `a + (-b)`. -/
def sub (a b : F) : F := add a (neg b)

/-- IEEE multiplication: NaN propagates, `0 * ∞ = NaN`, signs multiply. -/
def mul : F → F → F
  | nan, _ => nan
  | _, nan => nan
  | posInf, posInf => posInf
  | posInf, negInf => negInf
  | negInf, posInf => negInf
  | negInf, negInf => posInf
  | posInf, val b => if 0 < b then posInf else if b < 0 then negInf else nan
  | val a, posInf => if 0 < a then posInf else if a < 0 then negInf else nan
  | negInf, val b => if 0 < b then negInf else if b < 0 then posInf else nan
  | val a, negInf => if 0 < a then negInf else if a < 0 then posInf else nan
  | val a, val b => val (qmul a b)

/-- IEEE division: NaN propagates, `∞/∞ = NaN`, `0/0 = NaN`, `x/0 = ±∞`
(signed zero is not modelled: `0` behaves as `+0`). -/
def div : F → F → F
  | nan, _ => nan
  | _, nan => nan
  | posInf, posInf => nan
  | posInf, negInf => nan
  | negInf, posInf => nan
  | negInf, negInf => nan
  | posInf, val b => if 0 ≤ b then posInf else negInf
  | negInf, val b => if 0 ≤ b then negInf else posInf
  | val _, posInf => val 0
  | val _, negInf => val 0
  | val a, val b =>
    if b = 0 then (if a = 0 then nan else if 0 < a then posInf else negInf)
    else val (qdiv a b)

instance : Neg F := ⟨neg⟩
instance : Add F := ⟨add⟩
instance : Sub F := ⟨sub⟩
instance : Mul F := ⟨mul⟩
instance : Div F := ⟨div⟩
instance : NatCast F := ⟨fun n => val n⟩
instance (n : Nat) : OfNat F n := ⟨val n⟩
instance : OfScientific F :=
  ⟨fun m b e =>
    if b then val (Rat.divInt m ((10 ^ e : Nat) : Int)) else val (m * 10 ^ e : Nat)⟩

/-- IEEE `<=`: false whenever an operand is NaN. -/
def fle : F → F → Bool
  | nan, _ => false
  | _, nan => false
  | negInf, _ => true
  | _, posInf => true
  | posInf, _ => false
  | _, negInf => false
  | val a, val b => a ≤ b

/-- IEEE `<`: false whenever an operand is NaN. -/
def flt : F → F → Bool
  | nan, _ => false
  | _, nan => false
  | _, negInf => false
  | negInf, _ => true
  | posInf, _ => false
  | _, posInf => true
  | val a, val b => a < b

/-- IEEE `==`: false whenever an operand is NaN (so `NaN == NaN` is false). -/
def feq : F → F → Bool
  | nan, _ => false
  | _, nan => false
  | negInf, negInf => true
  | posInf, posInf => true
  | val a, val b => a = b
  | _, _ => false

/-- IEEE `!=`: negation of IEEE `==` (so `NaN != x` is true). -/
def fne (a b : F) : Bool := !feq a b

/-- `f32::partial_cmp`: `none` iff an operand is NaN. -/
def pcmp (a b : F) : Option Ordering :=
  if a.isNaN || b.isNaN then none
  else if feq a b then some Ordering.eq
  else if flt a b then some Ordering.lt
  else some Ordering.gt

end F

/-- `cmp_f32`: total order on `f32` placing NaN after every real value
(`src/lib.rs`, lines 182-197). -/
def cmp_f32 (lhs rhs : F) : Ordering :=
  match F.pcmp lhs rhs with
  | some ordering => ordering
  | none =>
    if lhs.isNaN then
      if rhs.isNaN then Ordering.eq else Ordering.gt
    else Ordering.lt

/-- `interpolate` (`src/lib.rs`, lines 172-175). -/
def interpolate (x x1 y1 x2 y2 : F) : F :=
  let k := (x - x1) / (x2 - x1)
  ((1 : F) - k) * y1 + k * y2

/-- `can_be_merged` (`src/lib.rs`, lines 177-180): the comparison
`l_mean == r_mean as f64` is IEEE equality. -/
def can_be_merged (l_mean : F) (r_mean : F) : Bool :=
  F.feq l_mean r_mean || (!l_mean.isInfinite && !r_mean.isInfinite)

/-- `Centroid` (`src/lib.rs`, lines 41-44). -/
structure Centroid where
  mean : F
  count : Nat
deriving DecidableEq, Repr

/-- `Config` (`src/lib.rs`, lines 68-72). -/
structure Config where
  epsilon : F
  max_centroids : Nat
  max_unmerged : Nat
deriving DecidableEq, Repr

/-- `Config::default` (`src/lib.rs`, lines 74-82); the literal `0.01f32` is
read as the exact rational `1/100`. -/
def Config.default : Config := ⟨0.01, 2048, 2048⟩

/-- `TDigest` (`src/lib.rs`, lines 218-223). -/
structure TDigest where
  config : Config
  centroids : List Centroid
  count : Nat
  unmerged : Nat
deriving DecidableEq, Repr

/-- `TDigestBuilder::build` (`src/lib.rs`, lines 139-147): a fresh digest with
the given configuration.  The builder itself is just a `Config` under
construction (`epsilon`, `max_centroids`, `max_unmerged` set fields). -/
def TDigest.build (config : Config) : TDigest :=
  { config := config, centroids := [], count := 0, unmerged := 0 }

/-- `TDigest::new` / `TDigest::default` (`src/lib.rs`, lines 235-237). -/
def TDigest.new : TDigest := TDigest.build Config.default

/-- `TDigest::len` (`src/lib.rs`, lines 280-282). -/
def TDigest.len (t : TDigest) : Nat := t.count

/-- `TDigest::is_empty` (`src/lib.rs`, lines 297-299). -/
def TDigest.is_empty (t : TDigest) : Bool := t.len = 0

/-- `TDigest::clear` (`src/lib.rs`, lines 313-317). -/
def TDigest.clear (t : TDigest) : TDigest :=
  { t with centroids := [], count := 0, unmerged := 0 }

/-!
## Compression

`TDigest::compress` and `TDigest::compress_brute` sweep the centroid vector in
place with a read index `r_index`, a write index `l_index`, and an accumulator
`(l_mean, l_count)`; slots between `l_index` and `r_index` were absorbed into
the accumulator but are only zeroed out when the accumulator is next
finalized.  The sweep is embedded with explicit state passing: at every point
the Rust vector equals `done ++ [⟨l_mean, l_count⟩] ++ eaten ++ rest` where
* `done` is the prefix strictly below `l_index` (finalized survivors and
  zeroed slots),
* the accumulator element sits at `l_index` (the code stores
  `(l_mean as f32, l_count)` there on every merge, and on entry the slot's
  fields equal `(l_mean, l_count)` since `f32 → f64` casts are the identity),
* `eaten` holds the slots strictly between `l_index` and `r_index`: already
  absorbed, still carrying their original values until zeroed,
* `rest` holds the slots from `r_index` on, never modified before being read.
-/

/-- Zero a centroid's count, as the statement `self.centroids[i].count = 0`. -/
def zeroed (c : Centroid) : Centroid := { c with count := 0 }

/-- Loop state of the merge sweep in `TDigest::compress`
(`src/lib.rs`, lines 474-540). -/
structure MergeState where
  done : List Centroid
  sum : Nat
  l_mean : F
  l_count : Nat
  eaten : List Centroid
deriving DecidableEq, Repr

/-- One-for-one embedding of the `for r_index in 1..self.centroids.len()`
sweep of `TDigest::compress` (`src/lib.rs`, lines 483-540).  `n` is
`self.count` (read-only during the loop) and `ce4` is `count_epsilon_4`. -/
def compressLoop (n : Nat) (ce4 : F) (s : MergeState) : List Centroid → MergeState
  | [] => s
  | r :: rest =>
    let ql : F := ((s.sum : F) + (s.l_count : F) * 0.5) / (n : F)
    let err : F := ql * (1 - ql)
    let qr : F := ((s.sum : F) + (s.l_count : F) + (r.count : F) * 0.5) / (n : F)
    let err2 : F := qr * (1 - qr)
    let err : F := if F.flt err2 err then err2 else err
    let k : F := ce4 * err
    if F.fle ((s.l_count : F) + (r.count : F)) k && can_be_merged s.l_mean r.mean then
      -- The left column "eats" the right; `centroids[l_index]` is overwritten
      -- with `(l_mean as f32, l_count)` and the eaten slot is left stale.
      let l_count := s.l_count + r.count
      let l_mean :=
        if F.fne r.mean s.l_mean then
          s.l_mean + (r.count : F) * (r.mean - s.l_mean) / (l_count : F)
        else s.l_mean
      compressLoop n ce4
        { s with l_mean := l_mean, l_count := l_count, eaten := s.eaten ++ [r] } rest
    else
      -- Finalize the accumulator (`sum += centroids[l_index].count`), zero the
      -- eaten slots (`while l_index != r_index`), restart the accumulator at `r`.
      compressLoop n ce4
        { done := s.done ++ ⟨s.l_mean, s.l_count⟩ :: s.eaten.map zeroed,
          sum := s.sum + s.l_count,
          l_mean := r.mean, l_count := r.count, eaten := [] } rest

/-- The comparator `|l, r| cmp_f32(l.mean, r.mean)` used by the stable
`sort_by`, as the relation "compares not-greater". -/
def centroidLE (l r : Centroid) : Prop := cmp_f32 l.mean r.mean ≠ Ordering.gt

instance : DecidableRel centroidLE := fun l r => by
  unfold centroidLE; infer_instance

/-- `TDigest::compress_brute` (`src/lib.rs`, lines 554-619) — loop state. -/
structure BruteState where
  done : List Centroid
  sum : Nat
  l_mean : F
  l_count : Nat
  eaten : List Centroid
  batch_pos : Nat
deriving DecidableEq, Repr

/-- One-for-one embedding of the `for r_index in 1..self.centroids.len()`
sweep of `TDigest::compress_brute` (`src/lib.rs`, lines 571-606). -/
def bruteLoop (batch_size : Nat) (s : BruteState) : List Centroid → BruteState
  | [] => s
  | r :: rest =>
    if s.batch_pos < batch_size - 1 then
      -- Middle of the batch: the left column "eats" the right.
      let l_count := s.l_count + r.count
      let l_mean :=
        if F.fne r.mean s.l_mean then
          s.l_mean + (r.count : F) * (r.mean - s.l_mean) / (l_count : F)
        else s.l_mean
      bruteLoop batch_size
        { s with l_mean := l_mean, l_count := l_count, eaten := s.eaten ++ [r],
                 batch_pos := s.batch_pos + 1 } rest
    else
      -- End of the batch: keep the head unless its mean is NaN, zero the
      -- skipped slots, start the next batch at `r`.
      if !s.l_mean.isNaN then
        bruteLoop batch_size
          { done := s.done ++ ⟨s.l_mean, s.l_count⟩ :: s.eaten.map zeroed,
            sum := s.sum + s.l_count,
            l_mean := r.mean, l_count := r.count, eaten := [], batch_pos := 0 } rest
      else
        bruteLoop batch_size
          { done := s.done ++ ⟨s.l_mean, 0⟩ :: s.eaten.map zeroed,
            sum := s.sum,
            l_mean := r.mean, l_count := r.count, eaten := [], batch_pos := 0 } rest

/-- `TDigest::compress_brute` (`src/lib.rs`, lines 554-619).  `none` models
the `usize` division-by-zero panic when `max_centroids == 0` (the vector is
non-empty at `first().unwrap()` whenever the early return was not taken, since
`len > max_centroids`). -/
def TDigest.compress_brute (t : TDigest) : Option TDigest :=
  if t.centroids.length ≤ t.config.max_centroids then some t
  else if t.config.max_centroids = 0 then none
  else
    let batch_size :=
      (t.centroids.length + t.config.max_centroids - 1) / t.config.max_centroids
    match t.centroids with
    | [] => none
    | l :: rest =>
      let s := bruteLoop batch_size ⟨[], 0, l.mean, l.count, [], 0⟩ rest
      let final : List Centroid × Nat :=
        if !s.l_mean.isNaN then
          -- Update count, it might be different due to `+=` inaccuracy.
          (s.done ++ ⟨s.l_mean, s.l_count⟩ :: s.eaten, s.sum + s.l_count)
        else
          -- Skip writing last batch if it's NaN: `centroids[l_index].count = 0`.
          (s.done ++ ⟨s.l_mean, 0⟩ :: s.eaten, s.sum)
      some { t with
             centroids := final.1.filter (fun c => c.count ≠ 0),
             count := final.2 }

/-- The merge pass of `TDigest::compress` (`src/lib.rs`, lines 471-547):
everything before the trailing `compress_brute` call.  `none` models the
panic of `self.centroids.first().unwrap()` on an empty vector.  The stable
`sort_by` is embedded as insertion sort (also stable) on `centroidLE`. -/
def TDigest.compress_merge (t : TDigest) : Option TDigest :=
  if t.unmerged > 0 || t.centroids.length > t.config.max_centroids then
    match (t.centroids.insertionSort centroidLE : List Centroid) with
    | [] => none
    | l :: rest =>
      let ce4 : F := (t.count : F) * t.config.epsilon * 4
      let s := compressLoop t.count ce4 ⟨[], 0, l.mean, l.count, []⟩ rest
      some { t with
             -- At the end of the loop, `self.count = sum + l_count` and
             -- `retain(|c| c.count != 0)` drops the zeroed slots.
             centroids :=
               (s.done ++ ⟨s.l_mean, s.l_count⟩ :: s.eaten).filter
                 (fun c => c.count ≠ 0),
             count := s.sum + s.l_count,
             unmerged := 0 }
  else some t

/-- `TDigest::compress` (`src/lib.rs`, lines 467-552): the merge pass
followed unconditionally by `compress_brute`. -/
def TDigest.compress (t : TDigest) : Option TDigest :=
  (t.compress_merge).bind TDigest.compress_brute

/-- The unconditional part of `TDigest::insert_centroid`
(`src/lib.rs`, lines 459-461): update the total, the unmerged counter and
push the centroid. -/
def TDigest.push (t : TDigest) (centroid : Centroid) : TDigest :=
  { t with count := t.count + centroid.count,
           unmerged := t.unmerged + 1,
           centroids := t.centroids ++ [centroid] }

/-- `TDigest::insert_centroid` (`src/lib.rs`, lines 458-465). -/
def TDigest.insert_centroid (t : TDigest) (centroid : Centroid) : Option TDigest :=
  let t := t.push centroid
  if t.unmerged > t.config.max_unmerged then t.compress else some t

/-- `TDigest::insert_many` (`src/lib.rs`, lines 449-456). -/
def TDigest.insert_many (t : TDigest) (value : F) (count : Nat) : Option TDigest :=
  if count = 0 || value.isNaN then some t
  else t.insert_centroid ⟨value, count⟩

/-- `TDigest::insert` (`src/lib.rs`, lines 432-434). -/
def TDigest.insert (t : TDigest) (value : F) : Option TDigest :=
  t.insert_many value 1

/-!
## Queries, merge operator, serialization
-/

/-- The `for c in self.centroids.iter()` walk of
`TDigest::quantile_uncompressed` (`src/lib.rs`, lines 356-384).  Returns
`some` when the early `return` inside the loop fires, `none` when the loop
runs to completion. -/
def quantileLoop (x : F) (prev_x : F) (sum : Nat) (prev : Centroid) :
    List Centroid → Option F
  | [] => none
  | c :: cs =>
    let current_x : F := (sum : F) + (c.count : F) * 0.5
    if F.fle x current_x then
      -- Special handling of singletons.
      let left := if prev.count = 1 then prev_x + 0.5 else prev_x
      let right := if c.count = 1 then current_x - 0.5 else current_x
      some
        (if F.fle x left then prev.mean
         else if F.fle right x then c.mean
         else interpolate x left prev.mean right c.mean)
    else
      quantileLoop x current_x (sum + c.count) c cs

/-- `TDigest::quantile_uncompressed` (`src/lib.rs`, lines 340-387). -/
def TDigest.quantile_uncompressed (t : TDigest) (level : F) : F :=
  match t.centroids with
  | [] => F.nan
  | [c] => c.mean
  | c :: cs =>
    let x : F := level * (t.count : F)
    match quantileLoop x 0 0 c (c :: cs) with
    | some v => v
    | none => ((c :: cs).getLast (by simp)).mean

/-- `TDigest::quantile` (`src/lib.rs`, lines 335-338): compress, then query;
returns the answer together with the mutated digest. -/
def TDigest.quantile (t : TDigest) (level : F) : Option (F × TDigest) :=
  (t.compress).map fun t1 => (t1.quantile_uncompressed level, t1)

/-- `TDigest::quantiles` (`src/lib.rs`, lines 413-416): compress and hand out
a read-only snapshot.  The `Quantiles` handle is the borrowed digest. -/
def TDigest.quantiles (t : TDigest) : Option TDigest := t.compress

/-- `Quantiles::get` (`src/lib.rs`, lines 762-764). -/
def Quantiles.get (digest : TDigest) (level : F) : F :=
  digest.quantile_uncompressed level

/-- `BitOrAssign::bitor_assign` (`src/lib.rs`, lines 663-667): replay every
centroid of `rhs` through `insert_centroid`. -/
def TDigest.bitor_assign (t : TDigest) (rhs : TDigest) : Option TDigest :=
  rhs.centroids.foldlM TDigest.insert_centroid t

/-- `BitOr::bitor` (`src/lib.rs`, lines 640-644): clone `self`, then
`|=` — on a clone this yields exactly `bitor_assign`. -/
def TDigest.bitor (t rhs : TDigest) : Option TDigest :=
  t.bitor_assign rhs

/-- `TDigest::append` (`src/lib.rs`, lines 262-265): `self |= other` then
`other.clear()`; returns the updated pair. -/
def TDigest.append (t other : TDigest) : Option (TDigest × TDigest) :=
  (t.bitor_assign other).map fun t1 => (t1, other.clear)

/-- The serialized interchange tuple
`[[epsilon, max_centroids, max_unmerged], [[mean, weight], ...], count, unmerged]`
(`src/lib.rs`, lines 47-54, 85-92, 712-720). -/
def TDigest.serialize (t : TDigest) : (F × Nat × Nat) × List (F × Nat) × Nat × Nat :=
  ((t.config.epsilon, t.config.max_centroids, t.config.max_unmerged),
   t.centroids.map (fun c => (c.mean, c.count)), t.count, t.unmerged)

/-- Deserialization of the interchange tuple
(`src/lib.rs`, lines 57-65, 95-107, 722-736). -/
def TDigest.deserialize (s : (F × Nat × Nat) × List (F × Nat) × Nat × Nat) : TDigest :=
  { config := ⟨s.1.1, s.1.2.1, s.1.2.2⟩,
    centroids := s.2.1.map (fun p => ⟨p.1, p.2⟩),
    count := s.2.2.1,
    unmerged := s.2.2.2 }

/-- `Extend<f32>` / `From<[f32; N]>` / `FromIterator<f32>`
(`src/lib.rs`, lines 677-710): build a digest by inserting values
left to right into a freshly built digest. -/
def TDigest.from_values (cfg : Config) (vs : List F) : Option TDigest :=
  vs.foldlM TDigest.insert (TDigest.build cfg)

/-!
## Claim theorems: ingestion (C5, C6), serialization (C8), empty digest (C9)
-/

/-- **C5**: for every digest, every non-NaN value `v` and weight `w ≥ 1`,
`insert_many(v, w)` appends the one-point centroid `(v, w)`, adds `w` to the
total count, increments `unmerged` by one, and then compresses synchronously
before returning if and only if the incremented counter exceeds
`max_unmerged`. -/
theorem c5_insert_many_effects (t : TDigest) (v : F) (w : Nat)
    (hw : w ≠ 0) (hv : v.isNaN = false) :
    t.insert_many v w =
      (let t1 : TDigest :=
        { t with centroids := t.centroids ++ [⟨v, w⟩],
                 count := t.count + w,
                 unmerged := t.unmerged + 1 }
       if t.unmerged + 1 > t.config.max_unmerged then t1.compress else some t1) := by
  simp [TDigest.insert_many, TDigest.insert_centroid, TDigest.push, hw, hv]

/-- Witness for **C5**: inserting `2.0` with weight `3` into a fresh default
digest appends `(2, 3)`, sets the count to `3` and `unmerged` to `1`, and
does not compress. -/
theorem c5_insert_many_effects_witness :
    TDigest.new.insert_many 2 3 =
      some { TDigest.new with centroids := [⟨2, 3⟩], count := 3, unmerged := 1 } := by
  have h := c5_insert_many_effects TDigest.new 2 3 (by decide) (by decide)
  simpa using h

/-- **C6**: inserting a zero weight or a NaN value leaves the digest
unchanged and signals no error (the call returns normally). -/
theorem c6_invalid_samples_dropped (t : TDigest) (v : F) (w : Nat)
    (h : w = 0 ∨ v.isNaN = true) :
    t.insert_many v w = some t := by
  rcases h with h | h <;> simp [TDigest.insert_many, h]

/-- Witness for **C6**: inserting NaN (weight 1) and weight 0 into a fresh
digest returns it unchanged. -/
theorem c6_invalid_samples_dropped_witness :
    TDigest.new.insert_many F.nan 1 = some TDigest.new ∧
      TDigest.new.insert_many 7 0 = some TDigest.new :=
  ⟨c6_invalid_samples_dropped TDigest.new F.nan 1 (Or.inr (by decide)),
   c6_invalid_samples_dropped TDigest.new 7 0 (Or.inl rfl)⟩

/-- **C8**: serializing a digest to the ordered tuple
`[[epsilon, max_centroids, max_unmerged], [[mean, weight], ...], count, unmerged]`
and deserializing that tuple reconstructs the digest exactly, so its quantile
answers are identical to the original's at every level. -/
theorem c8_serde_roundtrip (t : TDigest) (level : F) :
    TDigest.deserialize t.serialize = t ∧
      (TDigest.deserialize t.serialize).quantile level = t.quantile level := by
  have h : TDigest.deserialize t.serialize = t := by
    cases t with
    | mk config centroids count unmerged =>
      cases config
      simp [TDigest.serialize, TDigest.deserialize, List.map_map, Function.comp_def]
  exact ⟨h, by rw [h]⟩

/-- **C9**: querying an empty digest (no centroids, nothing pending) returns
the NaN sentinel, both through `quantile` (which leaves the digest unchanged)
and through a `Quantiles` snapshot's `get`. -/
theorem c9_empty_digest_nan (t : TDigest) (level : F)
    (hc : t.centroids = []) (hu : t.unmerged = 0) :
    t.quantile level = some (F.nan, t) ∧
      t.quantiles = some t ∧ Quantiles.get t level = F.nan := by
  have hm : t.compress_merge = some t := by
    simp [TDigest.compress_merge, hc, hu]
  have hb : t.compress_brute = some t := by
    simp [TDigest.compress_brute, hc]
  have hcomp : t.compress = some t := by
    simp [TDigest.compress, hm, hb]
  refine ⟨?_, ?_, ?_⟩
  · simp [TDigest.quantile, hcomp, TDigest.quantile_uncompressed, hc]
  · simp [TDigest.quantiles, hcomp]
  · simp [Quantiles.get, TDigest.quantile_uncompressed, hc]

/-- Witness for **C9**: a fresh default digest returns NaN at level `0.5`. -/
theorem c9_empty_digest_nan_witness :
    TDigest.new.quantile 0.5 = some (F.nan, TDigest.new) ∧
      TDigest.new.quantiles = some TDigest.new ∧
      Quantiles.get TDigest.new 0.5 = F.nan :=
  c9_empty_digest_nan TDigest.new 0.5 rfl rfl

/-!
## Claim theorems: post-compression invariants (C1) and idempotence (C7)

`compress_brute` zeroes the slots eaten by a batch only when the *next* batch
starts; when the sweep ends in the middle of a batch the eaten slots keep
their original nonzero counts and survive `retain(|c| c.count != 0)`.
-/

/-- **C1**: refuted on the code — immediately after a compression pass the
digest reachable from `builder().max_centroids(2)` by inserting
`1.0, 2.0, 3.0, 4.0` (then `quantile`, which compresses) has centroid
sequence `[(1.5, 2), (3.5, 2), (4.0, 1)]` and `len() = 4`: so
`centroids.len() ≤ max_centroids` is false (3 > 2, failing the code's own
`debug_assert!`) and the surviving weights sum to 5 ≠ `len()`. -/
theorem c1_post_compression_invariants_fail :
    ((TDigest.from_values ⟨0.01, 2, 2048⟩ [1, 2, 3, 4]).bind TDigest.compress).map
        (fun t => (t.centroids,
                   decide (t.centroids.length ≤ t.config.max_centroids),
                   decide ((t.centroids.map Centroid.count).sum = t.count))) =
      some ([⟨1.5, 2⟩, ⟨3.5, 2⟩, ⟨4, 1⟩], false, false) := by
  decide

/-- **C7**: refuted on the code — on the same reachable digest, a first
`quantile(0.5)` call answers `2.5` and leaves the (corrupted) state
`[(1.5, 2), (3.5, 2), (4.0, 1)]`, `len() = 4`; the second `quantile(0.5)`
call re-compresses (3 centroids still exceed `max_centroids = 2`), mutating
the digest to `[(2.5, 4), (4.0, 1)]`, `len() = 5`, and answers `2.875`,
not bit-identical to the first answer. -/
theorem c7_quantile_not_idempotent :
    (TDigest.from_values ⟨0.01, 2, 2048⟩ [1, 2, 3, 4]).bind
        (fun t => t.quantile 0.5) =
      some (2.5, ⟨⟨0.01, 2, 2048⟩, [⟨1.5, 2⟩, ⟨3.5, 2⟩, ⟨4, 1⟩], 4, 0⟩) ∧
      (⟨⟨0.01, 2, 2048⟩, [⟨1.5, 2⟩, ⟨3.5, 2⟩, ⟨4, 1⟩], 4, 0⟩ : TDigest).quantile 0.5 =
        some (2.875, ⟨⟨0.01, 2, 2048⟩, [⟨2.5, 4⟩, ⟨4, 1⟩], 5, 0⟩) := by
  constructor <;> decide

/-!
## Claims C2 and C3: counterexamples

With `max_centroids = 1`, inserting `1.0` and `2.0` and querying forces the
brute batch-cap phase, which averages the extreme centroid away:
`quantile(0.0)` answers `1.5`, not the minimum `1.0`.

With `max_centroids = 1, max_unmerged = 0`, every insertion compresses; the
union of a `{-∞}` digest and a `{+∞}` digest compresses the pair into one
batch whose mean is NaN, whose weight is (deliberately, per the code comment)
dropped from the total: `len(A | B) = 0 ≠ 1 + 1`.
-/

/-- **C2**: refuted on the code — the digest built through the public API
with `max_centroids = 1` from `[1.0, 2.0]` is non-empty, yet `quantile(0.0)`
returns `1.5`, not the minimum inserted value `1.0` (the brute batch-cap
phase merged the minimum into the batch average). -/
theorem c2_quantile_zero_not_min :
    ((TDigest.from_values ⟨0.01, 1, 2048⟩ [1, 2]).bind
        (fun t => t.quantile 0)).map Prod.fst = some 1.5 ∧ (1.5 : F) ≠ 1 := by
  constructor <;> decide

/-- **C3**: refuted on the code — for the reachable digests
`A = {-∞}` and `B = {+∞}` built with `max_centroids = 1, max_unmerged = 0`,
the union `A | B` has `len() = 0`, not `len(A) + len(B) = 2`: the replay
triggers a compression whose brute phase accumulates `-∞` and `+∞` into one
batch, the batch mean is NaN, and its entire weight is dropped. -/
theorem c3_merge_len_not_additive :
    (do
      let a ← (TDigest.build ⟨0.01, 1, 0⟩).insert F.negInf
      let b ← (TDigest.build ⟨0.01, 1, 0⟩).insert F.posInf
      (a.bitor b).map (fun c => (a.len, b.len, c.len))) =
      some (1, 1, 0) ∧ (0 : Nat) ≠ 1 + 1 := by
  constructor <;> decide

/-!
## Claim C10: reachable states never panic inside compression

The public mutating API is `new`/`default`/`builder().build()` (any
configuration), `insert`/`insert_many` (and `extend`, `From`, which fold
them), `|`/`|=`/`append` (which replay centroids through `insert_centroid`
and possibly `clear`), `clear`, and `quantile`/`quantiles` (which compress).
-/

/-- Digest states reachable through the public API.  Each constructor
corresponds to a public operation; `Option`-valued operations extend
reachability only through a successful (non-panicking) run. -/
inductive Reachable : TDigest → Prop where
  | build (config : Config) : Reachable (TDigest.build config)
  | insert_many {t t' : TDigest} (value : F) (count : Nat) :
      Reachable t → t.insert_many value count = some t' → Reachable t'
  | bitor_assign {a b a' : TDigest} :
      Reachable a → Reachable b → a.bitor_assign b = some a' → Reachable a'
  | clear {t : TDigest} : Reachable t → Reachable t.clear
  | compress {t t' : TDigest} : Reachable t → t.compress = some t' → Reachable t'

theorem compress_merge_unmerged {t t' : TDigest}
    (h : t.compress_merge = some t') : t'.unmerged = 0 := by
  unfold TDigest.compress_merge at h
  split at h
  · rcases hs : (t.centroids.insertionSort centroidLE : List Centroid) with _ | ⟨l, rest⟩ <;>
      rw [hs] at h
    · exact absurd h (by simp)
    · simp only [Option.some.injEq] at h
      rw [← h]
  · rename_i hg
    simp only [Bool.or_eq_true, decide_eq_true_eq, not_or] at hg
    simp only [Option.some.injEq] at h
    rw [← h]
    omega

theorem compress_merge_config {t t' : TDigest}
    (h : t.compress_merge = some t') : t'.config = t.config := by
  unfold TDigest.compress_merge at h
  split at h
  · rcases hs : (t.centroids.insertionSort centroidLE : List Centroid) with _ | ⟨l, rest⟩ <;>
      rw [hs] at h
    · exact absurd h (by simp)
    · simp only [Option.some.injEq] at h
      rw [← h]
  · simp only [Option.some.injEq] at h
    rw [← h]

theorem compress_brute_unmerged {t t' : TDigest}
    (h : t.compress_brute = some t') : t'.unmerged = t.unmerged := by
  unfold TDigest.compress_brute at h
  split at h
  · simp only [Option.some.injEq] at h; rw [← h]
  · split at h
    · exact absurd h (by simp)
    · rcases hs : t.centroids with _ | ⟨l, rest⟩ <;> rw [hs] at h
      · exact absurd h (by simp)
      · simp only [Option.some.injEq] at h; rw [← h]

theorem compress_unmerged {t t' : TDigest}
    (h : t.compress = some t') : t'.unmerged = 0 := by
  unfold TDigest.compress at h
  rcases hm : t.compress_merge with _ | t1 <;> rw [hm] at h
  · exact absurd h (by simp)
  · simp only [Option.some_bind] at h
    rw [compress_brute_unmerged h, compress_merge_unmerged hm]

/-- If `max_centroids ≥ 1`, `compress_brute` cannot panic: either the early
return fires, or the vector is non-empty and the batch-size division is by a
positive number. -/
theorem compress_brute_isSome {t : TDigest}
    (hmax : 1 ≤ t.config.max_centroids) : t.compress_brute.isSome := by
  unfold TDigest.compress_brute
  by_cases h1 : t.centroids.length ≤ t.config.max_centroids
  · rw [if_pos h1]; rfl
  · rw [if_neg h1, if_neg (by omega)]
    rcases hs : t.centroids with _ | ⟨l, rest⟩
    · exact absurd (hs ▸ h1) (by simp)
    · simp

/-- One `insert_centroid` step preserves `unmerged ≤ centroids.len()`. -/
theorem insert_centroid_unmerged_le {a a1 : TDigest} {c : Centroid}
    (h : a.insert_centroid c = some a1)
    (ha : a.unmerged ≤ a.centroids.length) :
    a1.unmerged ≤ a1.centroids.length := by
  simp only [TDigest.insert_centroid] at h
  split at h
  · rw [compress_unmerged h]; exact Nat.zero_le _
  · simp only [Option.some.injEq] at h
    rw [← h]
    simpa [TDigest.push] using Nat.succ_le_succ ha

theorem foldlM_insert_centroid_unmerged_le :
    ∀ (cs : List Centroid) (a a' : TDigest),
      List.foldlM TDigest.insert_centroid a cs = some a' →
      a.unmerged ≤ a.centroids.length →
      a'.unmerged ≤ a'.centroids.length := by
  intro cs
  induction cs with
  | nil =>
    intro a a' hop ha
    simp only [List.foldlM_nil, Option.pure_def, Option.some.injEq] at hop
    rw [← hop]; exact ha
  | cons c cs ih =>
    intro a a' hop ha
    rw [List.foldlM_cons] at hop
    rcases h1 : a.insert_centroid c with _ | a1 <;> rw [h1] at hop
    · exact absurd hop (by simp)
    · exact ih a1 a' hop (insert_centroid_unmerged_le h1 ha)

theorem unmerged_le_centroids_length {t : TDigest} (h : Reachable t) :
    t.unmerged ≤ t.centroids.length := by
  induction h with
  | build config => exact Nat.le_refl 0
  | insert_many value count hr hop ih =>
    unfold TDigest.insert_many at hop
    split at hop
    · simp only [Option.some.injEq] at hop
      rw [← hop]; exact ih
    · exact insert_centroid_unmerged_le hop ih
  | bitor_assign hra hrb hop iha ihb =>
    exact foldlM_insert_centroid_unmerged_le _ _ _ hop iha
  | clear hr ih => exact Nat.le_refl 0
  | compress hr hop ih =>
    rw [compress_unmerged hop]; exact Nat.zero_le _

/-- If the merge-pass guard implies a non-empty centroid vector,
`compress_merge` cannot panic at `first().unwrap()`. -/
theorem compress_merge_isSome {t : TDigest}
    (h : t.unmerged > 0 ∨ t.centroids.length > t.config.max_centroids →
      t.centroids ≠ []) : t.compress_merge.isSome := by
  unfold TDigest.compress_merge
  split
  · rename_i hg
    simp only [Bool.or_eq_true, decide_eq_true_eq] at hg
    have hnil : t.centroids ≠ [] := h hg
    rcases hs : (t.centroids.insertionSort centroidLE : List Centroid) with _ | ⟨l, rest⟩
    · exfalso
      have hp := (List.perm_insertionSort centroidLE t.centroids).length_eq
      rw [hs] at hp
      exact hnil (List.length_eq_zero.mp hp.symm)
    · rfl
  · rfl

/-- **C10**: on every digest reachable through the public API whose
configuration has `max_centroids ≥ 1`, whenever `compress` runs its merge
pass (`unmerged > 0` or `centroids.len() > max_centroids`) the centroid
sequence is non-empty — so `first().unwrap()` cannot panic — and the whole
compression (including the `batch_size` division of `compress_brute`)
returns normally. -/
theorem c10_compress_never_panics (t : TDigest) (h : Reachable t)
    (hmax : 1 ≤ t.config.max_centroids) :
    ((t.unmerged > 0 ∨ t.centroids.length > t.config.max_centroids) →
        t.centroids ≠ []) ∧
      t.compress.isSome := by
  have hlen := unmerged_le_centroids_length h
  have hne : (t.unmerged > 0 ∨ t.centroids.length > t.config.max_centroids) →
      t.centroids ≠ [] := by
    intro hg hnil
    rw [hnil] at hlen hg
    simp only [List.length_nil] at hg hlen
    omega
  refine ⟨hne, ?_⟩
  unfold TDigest.compress
  rcases hm : t.compress_merge with _ | t1
  · exfalso
    have hsome := compress_merge_isSome hne
    rw [hm] at hsome
    exact (by simp : ¬ (Option.none : Option TDigest).isSome = true) hsome
  · simp only [Option.some_bind]
    exact compress_brute_isSome (compress_merge_config hm ▸ hmax)

/-- Witness for **C10**: the digest obtained by inserting `1.0` into a fresh
default digest is reachable, its merge-pass guard holds, its centroid
sequence is non-empty, and compression succeeds. -/
theorem c10_compress_never_panics_witness :
    ((⟨Config.default, [⟨1, 1⟩], 1, 1⟩ : TDigest).unmerged > 0 →
        (⟨Config.default, [⟨1, 1⟩], 1, 1⟩ : TDigest).centroids ≠ []) ∧
      (⟨Config.default, [⟨1, 1⟩], 1, 1⟩ : TDigest).compress.isSome := by
  have hr : Reachable (⟨Config.default, [⟨1, 1⟩], 1, 1⟩ : TDigest) :=
    Reachable.insert_many 1 1 (Reachable.build Config.default) (by decide)
  have h := c10_compress_never_panics _ hr (by decide)
  exact ⟨fun hu => h.1 (Or.inl hu), h.2⟩

/-!
## Evaluation lemmas for `F` arithmetic on rational values
-/

@[simp] theorem F.natCast_eq (n : Nat) : ((n : Nat) : F) = F.val n := rfl

@[simp] theorem F.val_add (a b : ℚ) : F.val a + F.val b = F.val (a + b) := by
  show F.add (F.val a) (F.val b) = F.val (a + b)
  rw [F.add, qadd_eq]

@[simp] theorem F.val_neg (a : ℚ) : -F.val a = F.val (-a) := by
  show F.neg (F.val a) = F.val (-a)
  rw [F.neg, qneg_eq]

@[simp] theorem F.val_sub (a b : ℚ) : F.val a - F.val b = F.val (a - b) := by
  show F.sub (F.val a) (F.val b) = F.val (a - b)
  rw [F.sub]
  show F.add (F.val a) (-F.val b) = F.val (a - b)
  rw [F.val_neg]
  show F.add (F.val a) (F.val (-b)) = F.val (a - b)
  rw [F.add, qadd_eq]
  ring_nf

@[simp] theorem F.val_mul (a b : ℚ) : F.val a * F.val b = F.val (a * b) := by
  show F.mul (F.val a) (F.val b) = F.val (a * b)
  rw [F.mul, qmul_eq]

theorem F.val_div {b : ℚ} (hb : b ≠ 0) (a : ℚ) :
    F.val a / F.val b = F.val (a / b) := by
  show F.div (F.val a) (F.val b) = F.val (a / b)
  rw [F.div]
  simp [hb, qdiv_eq]

@[simp] theorem F.fle_val (a b : ℚ) : F.fle (F.val a) (F.val b) = decide (a ≤ b) := rfl

@[simp] theorem F.flt_val (a b : ℚ) : F.flt (F.val a) (F.val b) = decide (a < b) := rfl

@[simp] theorem F.ofNat_eq (n : Nat) [n.AtLeastTwo] :
    (OfNat.ofNat n : F) = F.val (OfNat.ofNat n) := rfl

@[simp] theorem F.one_eq : (1 : F) = F.val 1 := rfl

@[simp] theorem F.zero_eq : (0 : F) = F.val 0 := rfl

theorem F.half_eq : (0.5 : F) = F.val (1 / 2) := by
  show F.val (Rat.divInt 5 (10 ^ 1 : Nat)) = F.val (1 / 2)
  rw [Rat.divInt_eq_div]
  norm_num

theorem F.mul_negInf_of_pos {a : ℚ} (ha : 0 < a) :
    F.val a * F.negInf = F.negInf := by
  show F.mul (F.val a) F.negInf = F.negInf
  rw [F.mul]
  simp [ha]

theorem F.negInf_mul_val_pos {a : ℚ} (ha : 0 < a) :
    F.negInf * F.val a = F.negInf := by
  show F.mul F.negInf (F.val a) = F.negInf
  rw [F.mul]
  simp [ha]

/-!
## The merge pass under a sane configuration

With `epsilon ≤ 1/2` (IEEE comparison, so also excluding NaN), weights that
sum to `self.count`, and all weights positive, the weight condition
`l_count + r.count <= k` of `TDigest::compress` is false at the first
position (`sum = 0`, where `k ≤ 4·ε·N·ql ≤ 2·ε·l_count ≤ l_count`) and at
the last position (`sum + l_count + r.count = N`, where
`k ≤ 4·ε·N·(1-qr) ≤ 2·ε·r.count ≤ r.count`).
-/

set_option maxHeartbeats 1000000 in
theorem merge_cond_false (n sum l r : Nat) (eps : F)
    (heps : F.fle eps 0.5 = true) (hl : 1 ≤ l) (hr : 1 ≤ r)
    (hn : sum + l + r ≤ n)
    (hcase : sum = 0 ∨ sum + l + r = n) :
    F.fle ((l : F) + (r : F))
      (((n : F) * eps * 4) *
        (if F.flt
              ((((sum : F) + (l : F) + (r : F) * 0.5) / (n : F)) *
                (1 - (((sum : F) + (l : F) + (r : F) * 0.5) / (n : F))))
              ((((sum : F) + (l : F) * 0.5) / (n : F)) *
                (1 - (((sum : F) + (l : F) * 0.5) / (n : F))))
          then (((sum : F) + (l : F) + (r : F) * 0.5) / (n : F)) *
                (1 - (((sum : F) + (l : F) + (r : F) * 0.5) / (n : F)))
          else (((sum : F) + (l : F) * 0.5) / (n : F)) *
                (1 - (((sum : F) + (l : F) * 0.5) / (n : F))))) = false := by
  have hn2 : 2 ≤ n := by omega
  have hnq : (0 : ℚ) < (n : ℚ) := by exact_mod_cast Nat.lt_of_lt_of_le (by omega) hn2
  have hnq0 : ((n : ℚ)) ≠ 0 := ne_of_gt hnq
  have hlq : (1 : ℚ) ≤ (l : ℚ) := by exact_mod_cast hl
  have hrq : (1 : ℚ) ≤ (r : ℚ) := by exact_mod_cast hr
  have hsq : (0 : ℚ) ≤ (sum : ℚ) := by positivity
  have hnsum : (sum : ℚ) + l + r ≤ (n : ℚ) := by exact_mod_cast hn
  rw [F.half_eq]
  simp only [F.natCast_eq, F.one_eq, F.val_mul, F.val_add, F.val_sub,
    F.val_div hnq0]
  set q1 : ℚ := ((sum : ℚ) + (l : ℚ) * (1 / 2)) / (n : ℚ) with hq1
  set q2 : ℚ := ((sum : ℚ) + (l : ℚ) + (r : ℚ) * (1 / 2)) / (n : ℚ) with hq2
  have hq1pos : 0 < q1 := by rw [hq1]; positivity
  have hq1lt : q1 < 1 := by
    rw [hq1, div_lt_one hnq]
    linarith
  have hq2pos : 0 < q2 := by rw [hq2]; positivity
  have hq2lt : q2 < 1 := by
    rw [hq2, div_lt_one hnq]
    linarith
  have he1pos : 0 < q1 * (1 - q1) := mul_pos hq1pos (by linarith)
  have he2pos : 0 < q2 * (1 - q2) := mul_pos hq2pos (by linarith)
  -- in either branch the error value is positive and below both candidates
  have key : ∀ e : ℚ, 0 < e → e ≤ q1 * (1 - q1) → e ≤ q2 * (1 - q2) →
      F.fle (F.val ((l : ℚ) + (r : ℚ)))
        ((F.val (n : ℚ) * eps * F.val 4) * F.val e) = false := by
    intro e hepos he1 he2
    cases eps with
    | nan => simp [F.fle] at heps
    | posInf => rw [F.half_eq] at heps; simp [F.fle] at heps
    | negInf =>
      rw [F.mul_negInf_of_pos hnq, F.negInf_mul_val_pos (by norm_num),
        F.negInf_mul_val_pos hepos]
      rfl
    | val ee =>
      rw [F.half_eq] at heps
      simp only [F.fle_val, decide_eq_true_eq] at heps
      simp only [F.val_mul, F.fle_val, decide_eq_false_iff_not]
      intro hcon
      -- k = n * ee * 4 * e must stay below l + r
      rcases le_or_lt ee 0 with hee | hee
      · have hk : (n : ℚ) * ee * 4 * e ≤ 0 := by nlinarith [mul_pos hnq hepos]
        linarith
      · rcases hcase with hs0 | hsn
        · -- first pair: e ≤ q1 = l / (2n)
          have h1 : e ≤ q1 := by nlinarith [sq_nonneg q1]
          have h2 : (n : ℚ) * ee * 4 * e ≤ (n : ℚ) * ee * 4 * q1 :=
            mul_le_mul_of_nonneg_left h1 (by positivity)
          have h3 : (n : ℚ) * ee * 4 * q1 = 2 * ee * l := by
            rw [hq1, hs0]
            push_cast
            field_simp
            ring
          have h4 : 2 * ee * l ≤ l := by
            nlinarith [mul_nonneg (by linarith : (0:ℚ) ≤ 1 - 2 * ee)
              (by linarith : (0:ℚ) ≤ (l : ℚ))]
          linarith
        · -- last pair: e ≤ 1 - q2 = r / (2n)
          have h1 : e ≤ 1 - q2 := by nlinarith [sq_nonneg (1 - q2)]
          have h2 : (n : ℚ) * ee * 4 * e ≤ (n : ℚ) * ee * 4 * (1 - q2) :=
            mul_le_mul_of_nonneg_left h1 (by positivity)
          have h3 : (n : ℚ) * ee * 4 * (1 - q2) = 2 * ee * r := by
            have hne : (n : ℚ) = (sum : ℚ) + l + r := by exact_mod_cast hsn.symm
            rw [hq2, hne]
            field_simp
            ring
          have h4 : 2 * ee * r ≤ r := by
            nlinarith [mul_nonneg (by linarith : (0:ℚ) ≤ 1 - 2 * ee)
              (by linarith : (0:ℚ) ≤ (r : ℚ))]
          linarith
  simp only [F.flt_val, decide_eq_true_eq]
  rw [← apply_ite F.val]
  refine key _ ?_ ?_ ?_
  · split
    · exact he2pos
    · exact he1pos
  · split
    · rename_i hlt; exact le_of_lt hlt
    · exact le_refl _
  · split
    · exact le_refl _
    · rename_i hlt; exact not_lt.mp hlt

/-- Total weight of a list of centroids. -/
def wsum (cs : List Centroid) : Nat := (cs.map Centroid.count).sum

@[simp] theorem wsum_nil : wsum [] = 0 := rfl

@[simp] theorem wsum_cons (c : Centroid) (cs : List Centroid) :
    wsum (c :: cs) = c.count + wsum cs := by
  simp [wsum]

@[simp] theorem wsum_append (cs ds : List Centroid) :
    wsum (cs ++ ds) = wsum cs + wsum ds := by
  simp [wsum]

@[simp] theorem wsum_map_zeroed (cs : List Centroid) :
    wsum (cs.map zeroed) = 0 := by
  induction cs with
  | nil => rfl
  | cons c cs ih => simp [zeroed, ih]

/-- The sweep's finalized weight plus the accumulator weight grows by exactly
the weight it consumes (this is why `self.count = sum + l_count` restores the
exact total at the end of the merge pass). -/
theorem compressLoop_sum (n : Nat) (ce4 : F) :
    ∀ (rest : List Centroid) (s : MergeState),
      (compressLoop n ce4 s rest).sum + (compressLoop n ce4 s rest).l_count =
        s.sum + s.l_count + wsum rest := by
  intro rest
  induction rest with
  | nil => intro s; simp [compressLoop]
  | cons r tail ih =>
    intro s
    simp only [compressLoop]
    split <;> split <;>
      (rw [ih]; simp only [wsum_cons]; omega)

/-- The weight recorded in the `done` prefix equals the running `sum`
(zeroed slots weigh nothing). -/
theorem compressLoop_done_wsum (n : Nat) (ce4 : F) :
    ∀ (rest : List Centroid) (s : MergeState),
      wsum s.done = s.sum →
      wsum (compressLoop n ce4 s rest).done = (compressLoop n ce4 s rest).sum := by
  intro rest
  induction rest with
  | nil => intro s h; simpa [compressLoop] using h
  | cons r tail ih =>
    intro s h
    simp only [compressLoop]
    split <;> split <;>
      first
      | exact ih _ h
      | (refine ih _ ?_; simp [h])

/-- The sweep only ever appends to the `done` prefix. -/
theorem compressLoop_done_prefix (n : Nat) (ce4 : F) :
    ∀ (rest : List Centroid) (s : MergeState),
      ∃ d, (compressLoop n ce4 s rest).done = s.done ++ d := by
  intro rest
  induction rest with
  | nil => intro s; exact ⟨[], by simp [compressLoop]⟩
  | cons r tail ih =>
    intro s
    simp only [compressLoop]
    split <;> split <;>
      first
      | exact ih _
      | (obtain ⟨d, hd⟩ := ih
          { done := s.done ++ ⟨s.l_mean, s.l_count⟩ :: s.eaten.map zeroed,
            sum := s.sum + s.l_count,
            l_mean := r.mean, l_count := r.count, eaten := [] }
         exact ⟨(⟨s.l_mean, s.l_count⟩ :: s.eaten.map zeroed) ++ d, by
           rw [hd]; simp⟩)

/-- One step of the sweep, written out (definitional equality): used to
unfold exactly one iteration at a time. -/
theorem compressLoop_cons_eq (n : Nat) (ce4 : F) (s : MergeState) (r : Centroid)
    (rest : List Centroid) :
    compressLoop n ce4 s (r :: rest) =
      if (F.fle ((s.l_count : F) + (r.count : F))
            (ce4 *
              (if F.flt
                    ((((s.sum : F) + (s.l_count : F) + (r.count : F) * 0.5) / (n : F)) *
                      (1 - (((s.sum : F) + (s.l_count : F) + (r.count : F) * 0.5) / (n : F))))
                    ((((s.sum : F) + (s.l_count : F) * 0.5) / (n : F)) *
                      (1 - (((s.sum : F) + (s.l_count : F) * 0.5) / (n : F))))
                then (((s.sum : F) + (s.l_count : F) + (r.count : F) * 0.5) / (n : F)) *
                      (1 - (((s.sum : F) + (s.l_count : F) + (r.count : F) * 0.5) / (n : F)))
                else (((s.sum : F) + (s.l_count : F) * 0.5) / (n : F)) *
                      (1 - (((s.sum : F) + (s.l_count : F) * 0.5) / (n : F))))) &&
          can_be_merged s.l_mean r.mean) = true
      then
        compressLoop n ce4
          { s with
            l_mean :=
              if F.fne r.mean s.l_mean = true then
                s.l_mean + (r.count : F) * (r.mean - s.l_mean) /
                  ((s.l_count + r.count : Nat) : F)
              else s.l_mean,
            l_count := s.l_count + r.count,
            eaten := s.eaten ++ [r] } rest
      else
        compressLoop n ce4
          { done := s.done ++ ⟨s.l_mean, s.l_count⟩ :: s.eaten.map zeroed,
            sum := s.sum + s.l_count,
            l_mean := r.mean, l_count := r.count, eaten := [] } rest := rfl

set_option maxHeartbeats 1600000 in
/-- Under `epsilon ≤ 1/2` and consistent positive weights, the sweep's final
step always takes the finalization branch: the accumulator ends as the last
sorted centroid, untouched, and no stale eaten slot is left behind. -/
theorem compressLoop_last (n : Nat) (eps : F) (heps : F.fle eps 0.5 = true) :
    ∀ (rest : List Centroid) (hne : rest ≠ []) (s : MergeState),
      1 ≤ s.l_count →
      (∀ c ∈ rest, 1 ≤ c.count) →
      s.sum + s.l_count + wsum rest = n →
      (compressLoop n ((n : F) * eps * 4) s rest).eaten = [] ∧
        (compressLoop n ((n : F) * eps * 4) s rest).l_mean =
          (rest.getLast hne).mean ∧
        (compressLoop n ((n : F) * eps * 4) s rest).l_count =
          (rest.getLast hne).count := by
  intro rest
  induction rest with
  | nil => intro hne; exact absurd rfl hne
  | cons r tail ih =>
    intro hne s hl hcs hsum
    cases tail with
    | nil =>
      have hr : 1 ≤ r.count := hcs r (by simp)
      have hfle := merge_cond_false n s.sum s.l_count r.count eps heps hl hr
        (by simp only [wsum_cons, wsum_nil] at hsum; omega)
        (Or.inr (by simp only [wsum_cons, wsum_nil] at hsum; omega))
      rw [compressLoop_cons_eq, hfle]
      rw [if_neg (by simp)]
      simp only [compressLoop]
      refine ⟨by simp, by simp, by simp⟩
    | cons r2 tail2 =>
      have hne2 : (r2 :: tail2) ≠ [] := by simp
      have hgl : ((r :: r2 :: tail2).getLast hne) = ((r2 :: tail2).getLast hne2) :=
        List.getLast_cons hne2
      have hr1 : 1 ≤ r.count := hcs r (by simp)
      rw [hgl, compressLoop_cons_eq]
      split <;> (try split) <;>
        (refine ih hne2 _ ?_ ?_ ?_
         · dsimp only
           omega
         · exact fun c hc => hcs c (by simp [hc])
         · dsimp only
           simp only [wsum_cons] at hsum ⊢
           omega)

/-- `x` lies in the (IEEE-comparable, hence non-NaN) interval `[m, M]`. -/
def inB (m M x : F) : Prop := F.fle m x = true ∧ F.fle x M = true

instance (m M x : F) : Decidable (inB m M x) := by unfold inB; infer_instance

@[simp] theorem zeroed_mean (c : Centroid) : (zeroed c).mean = c.mean := rfl

theorem inB_not_nan {m M x : F} (h : inB m M x) : x ≠ F.nan := by
  intro hx
  rcases h with ⟨h1, h2⟩
  rw [hx] at h1
  cases m <;> simp [F.fle] at h1

theorem inB_val_between {m M : F} {a b c : ℚ}
    (ha : inB m M (F.val a)) (hb : inB m M (F.val b))
    (h1 : min a b ≤ c) (h2 : c ≤ max a b) : inB m M (F.val c) := by
  rcases ha with ⟨ha1, ha2⟩
  rcases hb with ⟨hb1, hb2⟩
  constructor
  · cases m with
    | nan => simp [F.fle] at ha1
    | negInf => rfl
    | posInf => simp [F.fle] at ha1
    | val mv =>
      simp only [F.fle_val, decide_eq_true_eq] at ha1 hb1 ⊢
      rcases min_cases a b with ⟨hm, _⟩ | ⟨hm, _⟩ <;> rw [hm] at h1 <;> linarith
  · cases M with
    | nan => simp [F.fle] at ha2
    | negInf => simp [F.fle] at ha2
    | posInf => rfl
    | val Mv =>
      simp only [F.fle_val, decide_eq_true_eq] at ha2 hb2 ⊢
      rcases max_cases a b with ⟨hm, _⟩ | ⟨hm, _⟩ <;> rw [hm] at h2 <;> linarith

theorem F.feq_symm (a b : F) : F.feq a b = F.feq b a := by
  cases a <;> cases b <;> first
  | rfl
  | (simp only [F.feq]; exact decide_eq_decide.mpr eq_comm)

/-- The incremental mean update
`l_mean += r.count * (r.mean - l_mean) / l_count` keeps the mean inside any
interval containing both operands, whenever the pair was mergeable and the
means differ (the guarded case of the source). -/
theorem merged_mean_inB {m M lm rm : F} {lc rc : Nat}
    (hlc : 1 ≤ lc)
    (hm : inB m M lm) (hr : inB m M rm)
    (hcbm : can_be_merged lm rm = true)
    (hfne : F.fne rm lm = true) :
    inB m M (lm + (rc : F) * (rm - lm) / ((lc + rc : Nat) : F)) := by
  have hfeq : F.feq lm rm = false := by
    rw [F.feq_symm]
    simpa [F.fne] using hfne
  have hinf : lm.isInfinite = false ∧ rm.isInfinite = false := by
    rw [can_be_merged, hfeq] at hcbm
    simp only [Bool.false_or, Bool.and_eq_true, Bool.not_eq_true'] at hcbm
    exact hcbm
  have hlm : lm ≠ F.nan := inB_not_nan hm
  have hrm : rm ≠ F.nan := inB_not_nan hr
  -- both means are finite rationals
  rcases lm with _ | _ | _ | a
  · exact absurd rfl hlm
  · simp [F.isInfinite] at hinf
  · simp [F.isInfinite] at hinf
  rcases rm with _ | _ | _ | b
  · exact absurd rfl hrm
  · simp [F.isInfinite] at hinf
  · simp [F.isInfinite] at hinf
  have hL : (0 : ℚ) < ((lc + rc : Nat) : ℚ) := by
    have h1 : (1 : ℚ) ≤ ((lc + rc : Nat) : ℚ) := by
      exact_mod_cast Nat.le_add_right_of_le hlc
    linarith
  have hL0 : ((lc + rc : Nat) : ℚ) ≠ 0 := ne_of_gt hL
  have hrc : (0 : ℚ) ≤ (rc : ℚ) := by positivity
  have hrcL : (rc : ℚ) ≤ ((lc + rc : Nat) : ℚ) := by
    have h1 : (0 : ℚ) ≤ (lc : ℚ) := by positivity
    push_cast
    linarith
  simp only [F.natCast_eq, F.val_sub, F.val_mul, F.val_div hL0, F.val_add]
  have hq0 : (0 : ℚ) ≤ (rc : ℚ) / ((lc + rc : Nat) : ℚ) := div_nonneg hrc hL.le
  have hq1 : (rc : ℚ) / ((lc + rc : Nat) : ℚ) ≤ 1 := (div_le_one hL).mpr hrcL
  have hrw : (rc : ℚ) * (b - a) / ((lc + rc : Nat) : ℚ) =
      ((rc : ℚ) / ((lc + rc : Nat) : ℚ)) * (b - a) := by ring
  rw [hrw]
  refine inB_val_between hm hr ?_ ?_
  · rcases le_total a b with hab | hab
    · rcases min_cases a b with ⟨hmin, _⟩ | ⟨hmin, _⟩ <;> rw [hmin] <;>
        nlinarith
    · rcases min_cases a b with ⟨hmin, _⟩ | ⟨hmin, _⟩ <;> rw [hmin] <;>
        nlinarith
  · rcases le_total a b with hab | hab
    · rcases max_cases a b with ⟨hmax, _⟩ | ⟨hmax, _⟩ <;> rw [hmax] <;>
        nlinarith
    · rcases max_cases a b with ⟨hmax, _⟩ | ⟨hmax, _⟩ <;> rw [hmax] <;>
        nlinarith

section CompressLoopBounds

variable {n : Nat} {ce4 : F} {m M : F}

/-- Merge-branch case of `compressLoop_bounds`. -/
theorem compressLoop_bounds_merge_step {s : MergeState} {r : Centroid}
    (hl : 1 ≤ s.l_count)
    (hm : inB m M s.l_mean) (heaten : ∀ c ∈ s.eaten, inB m M c.mean)
    (hr : inB m M r.mean)
    (hcbm : can_be_merged s.l_mean r.mean = true) :
    inB m M (if F.fne r.mean s.l_mean = true then
        s.l_mean + (r.count : F) * (r.mean - s.l_mean) /
          ((s.l_count + r.count : Nat) : F)
      else s.l_mean) ∧
      ∀ c ∈ s.eaten ++ [r], inB m M c.mean := by
  constructor
  · split
    · rename_i hfne
      exact merged_mean_inB hl hm hr hcbm hfne
    · exact hm
  · intro c hc
    rcases List.mem_append.mp hc with hc | hc
    · exact heaten c hc
    · rw [List.mem_singleton.mp hc]
      exact hr

/-- Finalization-branch case of `compressLoop_bounds`. -/
theorem compressLoop_bounds_else_step {s : MergeState}
    (hm : inB m M s.l_mean) (hdone : ∀ c ∈ s.done, inB m M c.mean)
    (heaten : ∀ c ∈ s.eaten, inB m M c.mean) :
    ∀ c ∈ s.done ++ ⟨s.l_mean, s.l_count⟩ :: s.eaten.map zeroed,
      inB m M c.mean := by
  intro c hc
  rcases List.mem_append.mp hc with hc | hc
  · exact hdone c hc
  · rcases List.mem_cons.mp hc with hc | hc
    · rw [hc]
      exact hm
    · obtain ⟨c0, hc0, hcz⟩ := List.mem_map.mp hc
      rw [← hcz, zeroed_mean]
      exact heaten c0 hc0

set_option maxHeartbeats 1600000 in
/-- The sweep never moves a mean outside an interval containing all the means
it started from: merged means are weighted averages of mergeable pairs. -/
theorem compressLoop_bounds :
    ∀ (rest : List Centroid) (s : MergeState),
      1 ≤ s.l_count →
      (∀ c ∈ rest, 1 ≤ c.count) →
      inB m M s.l_mean →
      (∀ c ∈ s.done, inB m M c.mean) →
      (∀ c ∈ s.eaten, inB m M c.mean) →
      (∀ c ∈ rest, inB m M c.mean) →
      (inB m M (compressLoop n ce4 s rest).l_mean ∧
        (∀ c ∈ (compressLoop n ce4 s rest).done, inB m M c.mean) ∧
        (∀ c ∈ (compressLoop n ce4 s rest).eaten, inB m M c.mean)) := by
  intro rest
  induction rest with
  | nil =>
    intro s hl hc1 hm hdone heaten hrest
    simpa [compressLoop] using ⟨hm, hdone, heaten⟩
  | cons r tail ih =>
    intro s hl hc1 hm hdone heaten hrest
    have hrmean : inB m M r.mean := hrest r (by simp)
    rw [compressLoop_cons_eq]
    split <;> (try split)
    case isTrue.isTrue _ hcond =>
      rw [Bool.and_eq_true] at hcond
      have hstep := compressLoop_bounds_merge_step hl hm heaten hrmean hcond.2
      exact ih _ (by dsimp only; omega) (fun c hc => hc1 c (by simp [hc]))
        hstep.1 hdone hstep.2 (fun c hc => hrest c (by simp [hc]))
    case isTrue.isFalse =>
      exact ih _ (by dsimp only; exact hc1 r (by simp))
        (fun c hc => hc1 c (by simp [hc])) hrmean
        (compressLoop_bounds_else_step hm hdone heaten)
        (by intro c hc; dsimp only at hc; simp at hc)
        (fun c hc => hrest c (by simp [hc]))
    case isFalse.isTrue _ hcond =>
      rw [Bool.and_eq_true] at hcond
      have hstep := compressLoop_bounds_merge_step hl hm heaten hrmean hcond.2
      exact ih _ (by dsimp only; omega) (fun c hc => hc1 c (by simp [hc]))
        hstep.1 hdone hstep.2 (fun c hc => hrest c (by simp [hc]))
    case isFalse.isFalse =>
      exact ih _ (by dsimp only; exact hc1 r (by simp))
        (fun c hc => hc1 c (by simp [hc])) hrmean
        (compressLoop_bounds_else_step hm hdone heaten)
        (by intro c hc; dsimp only at hc; simp at hc)
        (fun c hc => hrest c (by simp [hc]))

end CompressLoopBounds

/-- Under `epsilon ≤ 1/2` and consistent positive weights, the sweep's first
step always takes the finalization branch, so the head sorted centroid
survives compression untouched, as the first finalized centroid. -/
theorem compressLoop_first (n : Nat) (eps : F) (heps : F.fle eps 0.5 = true)
    (rest : List Centroid) (hne : rest ≠ []) (s : MergeState)
    (hdone : s.done = []) (heaten : s.eaten = []) (hsum0 : s.sum = 0)
    (hl : 1 ≤ s.l_count) (hcs : ∀ c ∈ rest, 1 ≤ c.count)
    (htot : s.sum + s.l_count + wsum rest = n) :
    (compressLoop n ((n : F) * eps * 4) s rest).done.head? =
      some ⟨s.l_mean, s.l_count⟩ := by
  rcases rest with _ | ⟨r, tail⟩
  · exact absurd rfl hne
  · have hr : 1 ≤ r.count := hcs r (by simp)
    have hfle := merge_cond_false n s.sum s.l_count r.count eps heps hl hr
      (by simp only [wsum_cons] at htot; omega) (Or.inl hsum0)
    rw [compressLoop_cons_eq, hfle]
    rw [if_neg (by simp)]
    obtain ⟨d, hd⟩ := compressLoop_done_prefix n ((n : F) * eps * 4) tail
      ⟨s.done ++ ⟨s.l_mean, s.l_count⟩ :: s.eaten.map zeroed,
        s.sum + s.l_count, r.mean, r.count, []⟩
    rw [hd]
    dsimp only
    rw [hdone, heaten]
    simp

theorem wsum_perm {cs ds : List Centroid} (h : cs.Perm ds) : wsum cs = wsum ds :=
  (h.map Centroid.count).sum_eq

theorem wsum_filter_ne_zero (cs : List Centroid) :
    wsum (cs.filter (fun c => c.count ≠ 0)) = wsum cs := by
  induction cs with
  | nil => rfl
  | cons c cs ih =>
    simp only [ne_eq, decide_not] at ih ⊢
    rw [List.filter_cons]
    by_cases hc : c.count = 0
    · rw [if_neg (by simp [hc])]
      simp [wsum_cons, hc, ih]
    · rw [if_pos (by simp [hc]), wsum_cons, wsum_cons, ih]

theorem one_le_of_mem_filter {c : Centroid} {cs : List Centroid}
    (h : c ∈ cs.filter (fun c => c.count ≠ 0)) : 1 ≤ c.count := by
  have := (List.mem_filter.mp h).2
  simp only [ne_eq, decide_not, Bool.not_eq_true', decide_eq_false_iff_not] at this
  omega

/-- The merge pass of `compress`, on a consistent digest with positive
weights and `epsilon ≤ 1/2`, succeeds, preserves the total count exactly,
and returns a consistent digest with positive weights. -/
theorem compress_merge_good (t : TDigest)
    (heps : F.fle t.config.epsilon 0.5 = true)
    (hw : wsum t.centroids = t.count)
    (hc1 : ∀ c ∈ t.centroids, 1 ≤ c.count)
    (hup : t.unmerged > 0 → t.centroids ≠ []) :
    ∃ t1, t.compress_merge = some t1 ∧ t1.config = t.config ∧
      t1.count = t.count ∧ t1.unmerged = 0 ∧
      wsum t1.centroids = t1.count ∧
      (∀ c ∈ t1.centroids, 1 ≤ c.count) := by
  unfold TDigest.compress_merge
  split
  case isFalse hg =>
    simp only [Bool.or_eq_true, decide_eq_true_eq, not_or] at hg
    exact ⟨t, rfl, rfl, rfl, by omega, hw, hc1⟩
  case isTrue hg =>
    simp only [Bool.or_eq_true, decide_eq_true_eq] at hg
    have hnil : t.centroids ≠ [] := by
      rcases hg with hg | hg
      · exact hup hg
      · intro hcon
        rw [hcon] at hg
        simp at hg
    have hperm := List.perm_insertionSort centroidLE t.centroids
    have hsw : wsum (t.centroids.insertionSort centroidLE) = t.count :=
      (wsum_perm hperm).trans hw
    have hsc : ∀ c ∈ t.centroids.insertionSort centroidLE, 1 ≤ c.count :=
      fun c hc => hc1 c (hperm.mem_iff.mp hc)
    rcases hs : (t.centroids.insertionSort centroidLE : List Centroid)
      with _ | ⟨l, rest⟩
    · exfalso
      have := hperm.length_eq
      rw [hs] at this
      exact hnil (List.length_eq_zero.mp this.symm)
    · rw [hs] at hsw hsc
      have hl1 : 1 ≤ l.count := hsc l (by simp)
      have hrc : ∀ c ∈ rest, 1 ≤ c.count := fun c hc => hsc c (by simp [hc])
      have htot : (0 : Nat) + l.count + wsum rest = t.count := by
        simp only [wsum_cons] at hsw
        omega
      have hsum := compressLoop_sum t.count ((t.count : F) * t.config.epsilon * 4)
        rest ⟨[], 0, l.mean, l.count, []⟩
      dsimp only at hsum
      have hdone := compressLoop_done_wsum t.count
        ((t.count : F) * t.config.epsilon * 4) rest ⟨[], 0, l.mean, l.count, []⟩
        (by simp)
      have heaten :
          (compressLoop t.count ((t.count : F) * t.config.epsilon * 4)
            ⟨[], 0, l.mean, l.count, []⟩ rest).eaten = [] := by
        rcases rest with _ | ⟨r2, tail2⟩
        · simp [compressLoop]
        · exact (compressLoop_last t.count t.config.epsilon heps _ (by simp)
            ⟨[], 0, l.mean, l.count, []⟩ hl1 hrc htot).1
      refine ⟨_, rfl, rfl, ?_, rfl, ?_, ?_⟩
      · dsimp only
        omega
      · dsimp only
        rw [wsum_filter_ne_zero, heaten]
        simp only [wsum_append, wsum_cons, wsum_nil]
        omega
      · intro c hc
        exact one_le_of_mem_filter hc

/-- `compress_brute` is the identity when the hard cap is already met. -/
theorem compress_brute_noop {t : TDigest}
    (h : t.centroids.length ≤ t.config.max_centroids) :
    t.compress_brute = some t := by
  unfold TDigest.compress_brute
  rw [if_pos h]

/-- The side condition of the amended merge claim: replaying a centroid list
through `insert_centroid` triggers only compressions whose merge pass leaves
at most `max_centroids` centroids (so the brute batch-cap pass, which can
drop weight, stays a no-op). -/
def replay_no_brute (t : TDigest) : List Centroid → Bool
  | [] => true
  | c :: cs =>
    let t1 := t.push c
    if t1.unmerged ≤ t1.config.max_unmerged then replay_no_brute t1 cs
    else
      match t1.compress_merge with
      | none => false
      | some t2 =>
        decide (t2.centroids.length ≤ t2.config.max_centroids) &&
          replay_no_brute t2 cs

/-- Replaying centroids into a consistent digest adds exactly their total
weight to `len()` whenever no brute batch-cap merge is triggered. -/
theorem replay_good :
    ∀ (cs : List Centroid) (a : TDigest),
      F.fle a.config.epsilon 0.5 = true →
      wsum a.centroids = a.count →
      (∀ c ∈ a.centroids, 1 ≤ c.count) →
      (∀ c ∈ cs, 1 ≤ c.count) →
      replay_no_brute a cs = true →
      ∃ a2, List.foldlM TDigest.insert_centroid a cs = some a2 ∧
        a2.count = a.count + wsum cs ∧ a2.config = a.config ∧
        wsum a2.centroids = a2.count ∧ (∀ c ∈ a2.centroids, 1 ≤ c.count) := by
  intro cs
  induction cs with
  | nil =>
    intro a heps hw hc1 _ _
    exact ⟨a, rfl, by simp, rfl, hw, hc1⟩
  | cons c cs ih =>
    intro a heps hw hc1 hcs hnb
    have hc : 1 ≤ c.count := hcs c (by simp)
    have hw1 : wsum (a.push c).centroids = (a.push c).count := by
      simp [TDigest.push, wsum_append, hw]
    have hc11 : ∀ d ∈ (a.push c).centroids, 1 ≤ d.count := by
      intro d hd
      simp only [TDigest.push] at hd
      rcases List.mem_append.mp hd with hd | hd
      · exact hc1 d hd
      · rw [List.mem_singleton.mp hd]
        exact hc
    rw [replay_no_brute] at hnb
    simp only [List.foldlM_cons]
    rw [TDigest.insert_centroid]
    split at hnb
    case isTrue hle =>
      rw [if_neg (by simp only [TDigest.push] at hle ⊢; omega)]
      obtain ⟨a2, hfold, hcount, hcfg, hw2, hc2⟩ :=
        ih (a.push c) (by simpa [TDigest.push] using heps) hw1 hc11
          (fun d hd => hcs d (by simp [hd])) hnb
      refine ⟨a2, hfold, ?_, by simpa [TDigest.push] using hcfg, hw2, hc2⟩
      rw [hcount]
      simp only [TDigest.push, wsum_cons]
      omega
    case isFalse hgt =>
      rw [if_pos (by simp only [TDigest.push] at hgt ⊢; omega)]
      obtain ⟨t2, hmerge, hcfg2, hcount2, _, hw2, hc2⟩ :=
        compress_merge_good (a.push c)
          (by simpa [TDigest.push] using heps) hw1 hc11
          (by intro _; simp [TDigest.push])
      rw [hmerge] at hnb
      simp only [Bool.and_eq_true, decide_eq_true_eq] at hnb
      obtain ⟨hlen, hnb⟩ := hnb
      have hbrute : t2.compress_brute = some t2 := compress_brute_noop hlen
      have hcomp : (a.push c).compress = some t2 := by
        rw [TDigest.compress, hmerge, Option.some_bind, hbrute]
      rw [hcomp]
      obtain ⟨a2, hfold, hcount, hcfg, hw3, hc3⟩ :=
        ih t2 (by rw [hcfg2]; simpa [TDigest.push] using heps) hw2 hc2
          (fun d hd => hcs d (by simp [hd])) hnb
      refine ⟨a2, hfold, ?_, ?_, hw3, hc3⟩
      · rw [hcount, hcount2]
        simp only [TDigest.push, wsum_cons]
        omega
      · rw [hcfg, hcfg2]
        simp [TDigest.push]

/-- **C3 (amended)**: for digests `A`, `B` whose states are consistent
(weights ≥ 1 summing to `len()` — true of every digest the API builds until
a brute batch-cap merge corrupts it) with `A`'s `epsilon ≤ 1/2`, and such
that replaying `B` into `A` triggers no brute batch-cap merge
(`replay_no_brute`), the union `A | B` (and `A |= B`) has
`len(A | B) = len(A) + len(B)`. -/
theorem c3_merge_len_additive (a b : TDigest)
    (heps : F.fle a.config.epsilon 0.5 = true)
    (hwa : wsum a.centroids = a.count)
    (hca : ∀ c ∈ a.centroids, 1 ≤ c.count)
    (hwb : wsum b.centroids = b.count)
    (hcb : ∀ c ∈ b.centroids, 1 ≤ c.count)
    (hnb : replay_no_brute a b.centroids = true) :
    (a.bitor b).map TDigest.len = some (a.len + b.len) := by
  obtain ⟨a2, hfold, hcount, _, _, _⟩ :=
    replay_good b.centroids a heps hwa hca hcb hnb
  rw [TDigest.bitor, TDigest.bitor_assign, hfold]
  show some a2.len = some (a.len + b.len)
  rw [TDigest.len, TDigest.len, TDigest.len, hcount, hwb]

/-- Witness for **C3 (amended)**: two default-configuration digests holding
`{1.0, 2.0}` and `{3.0, 4.0}`: their union has `len() = 4 = 2 + 2`. -/
theorem c3_merge_len_additive_witness :
    ((⟨Config.default, [⟨1, 1⟩, ⟨2, 1⟩], 2, 2⟩ : TDigest).bitor
        ⟨Config.default, [⟨3, 1⟩, ⟨4, 1⟩], 2, 2⟩).map TDigest.len = some (2 + 2) :=
  c3_merge_len_additive _ _ (by decide) (by decide)
    (by decide) (by decide) (by decide) (by decide)

/-!
## Order bridging between `cmp_f32` and IEEE `<=` on non-NaN values
-/

theorem F.fle_antisymm {x y : F} (hxy : F.fle x y = true)
    (hyx : F.fle y x = true) : x = y := by
  cases x <;> cases y <;> simp_all [F.fle]
  exact le_antisymm hxy hyx

theorem fle_of_cmp_ne_gt {x y : F} (hx : x ≠ F.nan) (hy : y ≠ F.nan)
    (h : cmp_f32 x y ≠ Ordering.gt) : F.fle x y = true := by
  cases x with
  | nan => exact absurd rfl hx
  | negInf => cases y with
    | nan => exact absurd rfl hy
    | _ => rfl
  | posInf => cases y with
    | nan => exact absurd rfl hy
    | posInf => rfl
    | negInf => exact absurd rfl h
    | val b => exact absurd rfl h
  | val a => cases y with
    | nan => exact absurd rfl hy
    | posInf => rfl
    | negInf => exact absurd rfl h
    | val b =>
      by_cases hab : a = b
      · simp [F.fle, hab]
      · by_cases hlt : a < b
        · simp [F.fle, le_of_lt hlt]
        · exfalso
          apply h
          simp [cmp_f32, F.pcmp, F.isNaN, F.feq, F.flt, hab, hlt]

theorem sorted_head_min {l0 : Centroid} {rest : List Centroid}
    (hs : (l0 :: rest).Sorted centroidLE) :
    ∀ c ∈ l0 :: rest, centroidLE l0 c ∨ c = l0 := by
  intro c hc
  rcases List.mem_cons.mp hc with hc | hc
  · exact Or.inr hc
  · exact Or.inl (List.rel_of_sorted_cons hs c hc)

theorem sorted_getLast_max {l : List Centroid}
    (hs : l.Sorted centroidLE) (hne : l ≠ []) :
    ∀ c ∈ l, centroidLE c (l.getLast hne) ∨ c = l.getLast hne := by
  induction l with
  | nil => exact absurd rfl hne
  | cons a t ih =>
    intro c hc
    cases t with
    | nil =>
      rw [List.mem_singleton.mp hc]
      exact Or.inr (by simp)
    | cons b t2 =>
      have hne2 : (b :: t2) ≠ [] := by simp
      have hgl : ((a :: b :: t2).getLast hne) = ((b :: t2).getLast hne2) :=
        List.getLast_cons hne2
      rw [hgl]
      rcases List.mem_cons.mp hc with hc | hc
      · left
        rw [hc]
        exact List.rel_of_sorted_cons hs _ (List.getLast_mem hne2)
      · exact ih hs.of_cons hne2 c hc

/-!
## `quantile_uncompressed` at levels 0 and 1
-/

/-- At target position `x = 0`, the very first centroid's midpoint already
satisfies `current_x >= x` and `x <= left`, so the walk returns the first
mean immediately. -/
theorem quantileLoop_zero_head (nn : Nat) (c : Centroid) (rest : List Centroid) :
    quantileLoop ((0 : F) * (nn : F)) 0 0 c (c :: rest) = some c.mean := by
  rw [quantileLoop, F.half_eq]
  simp only [F.natCast_eq, F.zero_eq, F.val_mul, F.val_add, zero_mul]
  rw [if_pos (by
    simp only [F.fle_val]
    exact decide_eq_true (by positivity))]
  congr 1
  split
  · rw [if_pos (by
      simp only [F.zero_eq, F.val_add, F.fle_val]
      exact decide_eq_true (by norm_num))]
  · rw [if_pos (by
      simp only [F.zero_eq, F.fle_val]
      exact decide_eq_true (by norm_num))]

/-- At target position `x = total`, no centroid's midpoint reaches `x`
(each midpoint is at least half a unit short), so the walk runs to
completion. -/
theorem quantileLoop_total (total : Nat) :
    ∀ (cs : List Centroid) (sum : Nat) (prev_x : F) (prev : Centroid),
      (∀ c ∈ cs, 1 ≤ c.count) →
      sum + wsum cs = total →
      quantileLoop (F.val total) prev_x sum prev cs = none := by
  intro cs
  induction cs with
  | nil => intro sum prev_x prev _ _; rfl
  | cons c cs ih =>
    intro sum prev_x prev hc1 htot
    rw [quantileLoop, F.half_eq]
    simp only [F.natCast_eq, F.val_mul, F.val_add]
    rw [if_neg (by
      simp only [F.fle_val, decide_eq_true_eq, not_le]
      have h1 : 1 ≤ c.count := hc1 c (by simp)
      have h2 : sum + c.count + wsum cs = total := by
        simp only [wsum_cons] at htot
        omega
      have h3 : (sum : ℚ) + (c.count : ℚ) + (wsum cs : ℚ) = (total : ℚ) := by
        exact_mod_cast h2
      have h4 : (1 : ℚ) ≤ (c.count : ℚ) := by exact_mod_cast h1
      have h5 : (0 : ℚ) ≤ (wsum cs : ℚ) := by positivity
      linarith)]
    exact ih (sum + c.count) _ c (fun d hd => hc1 d (by simp [hd]))
      (by simp only [wsum_cons] at htot; omega)

/-- `quantile(0.0)` on a digest whose centroid list is known returns the
first centroid's mean. -/
theorem quantile_uncompressed_zero (t : TDigest) (c : Centroid)
    (cs : List Centroid) (hcent : t.centroids = c :: cs) :
    t.quantile_uncompressed 0 = c.mean := by
  cases cs with
  | nil => simp [TDigest.quantile_uncompressed, hcent]
  | cons c2 cs2 =>
    simp only [TDigest.quantile_uncompressed, hcent]
    rw [quantileLoop_zero_head t.count c (c2 :: cs2)]

/-- `quantile(1.0)` on a consistent digest whose centroid list is known
returns the last centroid's mean. -/
theorem quantile_uncompressed_one (t : TDigest) (c : Centroid)
    (cs : List Centroid) (hcent : t.centroids = c :: cs)
    (hw : wsum (c :: cs) = t.count)
    (hc1 : ∀ d ∈ c :: cs, 1 ≤ d.count) :
    t.quantile_uncompressed 1 = ((c :: cs).getLast (by simp)).mean := by
  cases cs with
  | nil => simp [TDigest.quantile_uncompressed, hcent]
  | cons c2 cs2 =>
    simp only [TDigest.quantile_uncompressed, hcent]
    have hx : (1 : F) * ((t.count : Nat) : F) = F.val t.count := by
      simp only [F.natCast_eq, F.one_eq, F.val_mul, one_mul]
    rw [hx, quantileLoop_total t.count (c :: c2 :: cs2) 0 0 c hc1
      (by simpa using hw)]

/-- Linear-order key realizing `cmp_f32`: `-∞ < rationals < +∞ < NaN`. -/
def fkey : F → WithTop (WithBot (WithTop ℚ))
  | F.nan => ⊤
  | F.negInf => ((⊥ : WithBot (WithTop ℚ)) : WithTop (WithBot (WithTop ℚ)))
  | F.posInf => (((⊤ : WithTop ℚ) : WithBot (WithTop ℚ)) : WithTop (WithBot (WithTop ℚ)))
  | F.val a => (((a : WithTop ℚ) : WithBot (WithTop ℚ)) : WithTop (WithBot (WithTop ℚ)))

theorem cmp_ne_gt_iff_fkey (x y : F) :
    cmp_f32 x y ≠ Ordering.gt ↔ fkey x ≤ fkey y := by
  cases x <;> cases y <;>
    simp [cmp_f32, F.pcmp, F.isNaN, F.feq, F.flt, fkey] <;>
    first
    | rfl
    | (rename_i a b
       by_cases hab : a = b
       · simp [hab]
       · by_cases hlt : a < b
         · simp [hab, hlt, le_of_lt hlt]
         · simp only [hab, hlt, if_false]
           simp only [not_true, false_iff, not_le]
           exact lt_of_le_of_ne (not_lt.mp hlt) (fun h => hab h.symm))

instance : IsTrans Centroid centroidLE :=
  ⟨fun a b c hab hbc => by
    rw [centroidLE, cmp_ne_gt_iff_fkey] at hab hbc ⊢
    exact le_trans hab hbc⟩

instance : IsTotal Centroid centroidLE :=
  ⟨fun a b => by
    rw [centroidLE, centroidLE, cmp_ne_gt_iff_fkey, cmp_ne_gt_iff_fkey]
    exact le_total _ _⟩

theorem getLast_of_eq {α : Type _} {l1 l2 : List α} (h : l1 = l2)
    (h1 : l1 ≠ []) (h2 : l2 ≠ []) : l1.getLast h1 = l2.getLast h2 := by
  subst h
  rfl

set_option maxHeartbeats 1600000 in
/-- Structure of the merge pass under a sane configuration: the head sorted
centroid survives as the first output centroid, the last sorted centroid
survives as the last output centroid, the count is preserved exactly and the
output is consistent. -/
theorem compress_merge_structure (t : TDigest) (l : Centroid)
    (rest : List Centroid)
    (hs : (t.centroids.insertionSort centroidLE : List Centroid) = l :: rest)
    (heps : F.fle t.config.epsilon 0.5 = true)
    (hw : wsum t.centroids = t.count)
    (hc1 : ∀ c ∈ t.centroids, 1 ≤ c.count)
    (hguard : (decide (t.unmerged > 0) ||
      decide (t.centroids.length > t.config.max_centroids)) = true) :
    ∃ t1 mid,
      t.compress_merge = some t1 ∧
      t1.config = t.config ∧ t1.count = t.count ∧
      t1.centroids = ⟨l.mean, l.count⟩ :: mid ∧
      wsum t1.centroids = t1.count ∧
      (∀ c ∈ t1.centroids, 1 ≤ c.count) ∧
      (∀ hr : rest ≠ [],
        ∃ hne1 : t1.centroids ≠ [],
          t1.centroids.getLast hne1 =
            ⟨(rest.getLast hr).mean, (rest.getLast hr).count⟩) := by
  have hperm := List.perm_insertionSort centroidLE t.centroids
  have hsw : wsum (l :: rest) = t.count := by
    rw [← hs]
    exact (wsum_perm hperm).trans hw
  have hsc : ∀ c ∈ l :: rest, 1 ≤ c.count := by
    rw [← hs]
    exact fun c hc => hc1 c (hperm.mem_iff.mp hc)
  have hl1 : 1 ≤ l.count := hsc l (by simp)
  have hrc : ∀ c ∈ rest, 1 ≤ c.count := fun c hc => hsc c (by simp [hc])
  have htot : (0 : Nat) + l.count + wsum rest = t.count := by
    simp only [wsum_cons] at hsw
    omega
  have hunfold : t.compress_merge =
      some { t with
             centroids :=
               ((compressLoop t.count ((t.count : F) * t.config.epsilon * 4)
                   ⟨[], 0, l.mean, l.count, []⟩ rest).done ++
                 ⟨(compressLoop t.count ((t.count : F) * t.config.epsilon * 4)
                     ⟨[], 0, l.mean, l.count, []⟩ rest).l_mean,
                  (compressLoop t.count ((t.count : F) * t.config.epsilon * 4)
                     ⟨[], 0, l.mean, l.count, []⟩ rest).l_count⟩ ::
                 (compressLoop t.count ((t.count : F) * t.config.epsilon * 4)
                     ⟨[], 0, l.mean, l.count, []⟩ rest).eaten).filter
                 (fun c => c.count ≠ 0),
             count :=
               (compressLoop t.count ((t.count : F) * t.config.epsilon * 4)
                   ⟨[], 0, l.mean, l.count, []⟩ rest).sum +
                 (compressLoop t.count ((t.count : F) * t.config.epsilon * 4)
                     ⟨[], 0, l.mean, l.count, []⟩ rest).l_count,
             unmerged := 0 } := by
    unfold TDigest.compress_merge
    rw [if_pos hguard, hs]
  have hsum := compressLoop_sum t.count ((t.count : F) * t.config.epsilon * 4)
    rest ⟨[], 0, l.mean, l.count, []⟩
  dsimp only at hsum
  rcases rest with _ | ⟨r2, tail2⟩
  · refine ⟨_, [], hunfold, rfl, ?_, ?_, ?_, ?_, ?_⟩
    · simp only [compressLoop]
      try dsimp only
      simp only [wsum_nil] at htot
      omega
    · simp only [compressLoop]
      try dsimp only
      rw [List.nil_append, List.filter_cons_of_pos (by simp; omega),
        List.filter_nil]
    · simp only [compressLoop]
      try dsimp only
      rw [List.nil_append, List.filter_cons_of_pos (by simp; omega),
        List.filter_nil]
      simp only [wsum_cons, wsum_nil]
      omega
    · intro c hc
      exact one_le_of_mem_filter hc
    · intro hr
      exact absurd rfl hr
  · have hne2 : (r2 :: tail2) ≠ [] := by simp
    set res := compressLoop t.count ((t.count : F) * t.config.epsilon * 4)
      ⟨[], 0, l.mean, l.count, []⟩ (r2 :: tail2) with hres
    obtain ⟨heaten, hlm, hlc⟩ := compressLoop_last t.count t.config.epsilon heps
      (r2 :: tail2) hne2 ⟨[], 0, l.mean, l.count, []⟩ hl1 hrc htot
    have hfirst := compressLoop_first t.count t.config.epsilon heps
      (r2 :: tail2) hne2 ⟨[], 0, l.mean, l.count, []⟩ rfl rfl rfl hl1 hrc htot
    have hdonew := compressLoop_done_wsum t.count
      ((t.count : F) * t.config.epsilon * 4) (r2 :: tail2)
      ⟨[], 0, l.mean, l.count, []⟩ (by simp)
    rw [← hres] at heaten hlm hlc hfirst hdonew
    have hglc : 1 ≤ ((r2 :: tail2).getLast hne2).count :=
      hrc _ (List.getLast_mem hne2)
    rcases hdone : res.done with _ | ⟨hd, d⟩
    · rw [hdone] at hfirst
      exact absurd hfirst (by simp)
    · rw [hdone] at hfirst hdonew
      have hhd : hd = ⟨l.mean, l.count⟩ := by
        simpa using hfirst
      refine ⟨_, (d ++ [(⟨res.l_mean, res.l_count⟩ : Centroid)]).filter
          (fun c => c.count ≠ 0),
        hunfold, rfl, ?_, ?_, ?_, ?_, ?_⟩
      · -- count preserved
        try dsimp only
        simp only [wsum_cons] at hsum htot
        omega
      · -- head structure
        try dsimp only
        rw [heaten, hdone, hhd, List.cons_append,
          List.filter_cons_of_pos (by simp; omega)]
      · -- consistency
        try dsimp only
        rw [wsum_filter_ne_zero, heaten, hdone]
        simp only [wsum_append, wsum_cons, wsum_nil]
        simp only [wsum_cons] at hdonew
        omega
      · -- positive weights
        intro c hc
        exact one_le_of_mem_filter hc
      · -- last centroid survives
        intro hr
        try dsimp only
        have hsplit : ((res.done ++
              [(⟨res.l_mean, res.l_count⟩ : Centroid)]).filter
              (fun c => c.count ≠ 0)) =
            res.done.filter (fun c => c.count ≠ 0) ++
              [(⟨res.l_mean, res.l_count⟩ : Centroid)] := by
          rw [List.filter_append,
            List.filter_cons_of_pos (by simp only [decide_eq_true_eq, ne_eq]; rw [hlc]; omega),
            List.filter_nil]
        have hfull : ((res.done ++
              (⟨res.l_mean, res.l_count⟩ : Centroid) :: res.eaten).filter
              (fun c => c.count ≠ 0)) =
            res.done.filter (fun c => c.count ≠ 0) ++
              [(⟨res.l_mean, res.l_count⟩ : Centroid)] := by
          rw [heaten]; exact hsplit
        refine ⟨by rw [hfull]; simp, ?_⟩
        rw [getLast_of_eq hfull (by rw [hfull]; simp) (by simp),
          List.getLast_append_singleton, hlm, hlc]

/-- The merge pass on a digest that sorts to a single centroid keeps that
centroid as the only survivor. -/
theorem compress_merge_singleton (t : TDigest) (l : Centroid)
    (hs : (t.centroids.insertionSort centroidLE : List Centroid) = [l])
    (hl1 : 1 ≤ l.count)
    (hguard : (decide (t.unmerged > 0) ||
      decide (t.centroids.length > t.config.max_centroids)) = true) :
    t.compress_merge =
      some { t with
             centroids := [(⟨l.mean, l.count⟩ : Centroid)],
             count := 0 + l.count,
             unmerged := 0 } := by
  unfold TDigest.compress_merge
  rw [if_pos hguard, hs]
  simp only [compressLoop, List.nil_append, List.filter_cons, List.filter_nil,
    decide_eq_true_eq, ne_eq]
  rw [if_pos (by omega)]

set_option maxHeartbeats 800000 in
/-- **C2** (amended): on a consistent digest with `epsilon ≤ 1/2`, positive
weights, every centroid mean inside the IEEE-comparable interval `[m, M]`
with both endpoints attained, a pending unmerged buffer (so the triggered
compression sorts the centroids) and a merge pass leaving at most
`max_centroids` centroids (so the lossy brute batch-cap pass is a no-op),
`quantile(0.0)` answers the minimum centroid mean `m` and `quantile(1.0)`
the maximum centroid mean `M`. -/
theorem c2_quantile_min_max (t : TDigest) (m M : F)
    (heps : F.fle t.config.epsilon 0.5 = true)
    (hw : wsum t.centroids = t.count)
    (hc1 : ∀ c ∈ t.centroids, 1 ≤ c.count)
    (hbound : ∀ c ∈ t.centroids, inB m M c.mean)
    (hmin : ∃ c ∈ t.centroids, c.mean = m)
    (hmax : ∃ c ∈ t.centroids, c.mean = M)
    (hguard : 0 < t.unmerged)
    (hnb : ∀ t1, t.compress_merge = some t1 →
      t1.centroids.length ≤ t1.config.max_centroids) :
    (t.quantile 0).map Prod.fst = some m ∧
      (t.quantile 1).map Prod.fst = some M := by
  have hperm := List.perm_insertionSort centroidLE t.centroids
  have hguard' : (decide (t.unmerged > 0) ||
      decide (t.centroids.length > t.config.max_centroids)) = true := by
    simp only [Bool.or_eq_true, decide_eq_true_eq]
    exact Or.inl hguard
  obtain ⟨cm, hcm, hcmm⟩ := hmin
  obtain ⟨cM, hcM, hcMM⟩ := hmax
  rcases hs : (t.centroids.insertionSort centroidLE : List Centroid) with
    _ | ⟨l, rest⟩
  · exfalso
    have hmem := hperm.mem_iff.mpr hcm
    rw [hs] at hmem
    simp at hmem
  have hsorted : (l :: rest).Sorted centroidLE := by
    rw [← hs]
    exact List.sorted_insertionSort centroidLE t.centroids
  have hmem : ∀ c ∈ l :: rest, c ∈ t.centroids := by
    intro c hc
    rw [← hs] at hc
    exact hperm.mem_iff.mp hc
  have hbound' : ∀ c ∈ l :: rest, inB m M c.mean :=
    fun c hc => hbound c (hmem c hc)
  have hcm' : cm ∈ l :: rest := by
    rw [← hs]
    exact hperm.mem_iff.mpr hcm
  have hcM' : cM ∈ l :: rest := by
    rw [← hs]
    exact hperm.mem_iff.mpr hcM
  have hlm : l.mean = m := by
    rcases sorted_head_min hsorted cm hcm' with h | h
    · have h1 : F.fle l.mean cm.mean = true :=
        fle_of_cmp_ne_gt (inB_not_nan (hbound' l (by simp)))
          (inB_not_nan (hbound' cm hcm')) h
      rw [hcmm] at h1
      exact F.fle_antisymm h1 (hbound' l (by simp)).1
    · rw [← h]
      exact hcmm
  have hne : (l :: rest) ≠ [] := by simp
  have hgM : ((l :: rest).getLast hne).mean = M := by
    rcases sorted_getLast_max hsorted hne cM hcM' with h | h
    · have h1 : F.fle cM.mean ((l :: rest).getLast hne).mean = true :=
        fle_of_cmp_ne_gt (inB_not_nan (hbound' cM hcM'))
          (inB_not_nan (hbound' _ (List.getLast_mem hne))) h
      rw [hcMM] at h1
      exact F.fle_antisymm (hbound' _ (List.getLast_mem hne)).2 h1
    · rw [← h]
      exact hcMM
  rcases rest with _ | ⟨r2, tail2⟩
  · -- the digest sorts to a single centroid: m = M = its mean
    have hl1 : 1 ≤ l.count := hc1 l (hmem l (by simp))
    have hmerge := compress_merge_singleton t l hs hl1 hguard'
    have hnoop := compress_brute_noop (hnb _ hmerge)
    have hcompress : t.compress =
        some { t with
               centroids := [(⟨l.mean, l.count⟩ : Centroid)],
               count := 0 + l.count,
               unmerged := 0 } := by
      rw [TDigest.compress, hmerge]
      simpa using hnoop
    constructor
    · rw [TDigest.quantile, hcompress]
      show some l.mean = some m
      rw [hlm]
    · rw [TDigest.quantile, hcompress]
      show some l.mean = some M
      exact congrArg some hgM
  · -- at least two sorted centroids: head and last both survive the merge
    obtain ⟨t1, mid, hmerge, hcfg, hcount, hcent, hw1, hc11, hlast⟩ :=
      compress_merge_structure t l (r2 :: tail2) hs heps hw hc1 hguard'
    have hnoop := compress_brute_noop (hnb _ hmerge)
    have hcompress : t.compress = some t1 := by
      rw [TDigest.compress, hmerge]
      simpa using hnoop
    obtain ⟨hne1, hgl⟩ := hlast (by simp)
    constructor
    · rw [TDigest.quantile, hcompress]
      show some (t1.quantile_uncompressed 0) = some m
      rw [quantile_uncompressed_zero t1 _ _ hcent]
      exact congrArg some hlm
    · rw [TDigest.quantile, hcompress]
      show some (t1.quantile_uncompressed 1) = some M
      have hw' : wsum ((⟨l.mean, l.count⟩ : Centroid) :: mid) = t1.count := by
        rw [← hcent]
        exact hw1
      have hc1' : ∀ d ∈ (⟨l.mean, l.count⟩ : Centroid) :: mid, 1 ≤ d.count :=
        fun d hd => hc11 d (by rw [hcent]; exact hd)
      rw [quantile_uncompressed_one t1 _ _ hcent hw' hc1']
      have h2 : (((⟨l.mean, l.count⟩ : Centroid) :: mid).getLast (by simp)) =
          ⟨((r2 :: tail2).getLast (by simp)).mean,
           ((r2 :: tail2).getLast (by simp)).count⟩ := by
        rw [← getLast_of_eq hcent hne1 (by simp)]
        exact hgl
      rw [h2]
      have h3 : ((r2 :: tail2).getLast (by simp)).mean = M := by
        rw [← hgM]
        exact congrArg Centroid.mean (List.getLast_cons (by simp)).symm
      exact congrArg some h3

theorem c2_quantile_min_max_witness :
    ((⟨Config.default, [⟨1, 1⟩, ⟨2, 1⟩], 2, 2⟩ : TDigest).quantile 0).map
        Prod.fst = some 1 ∧
      ((⟨Config.default, [⟨1, 1⟩, ⟨2, 1⟩], 2, 2⟩ : TDigest).quantile 1).map
        Prod.fst = some 2 :=
  c2_quantile_min_max _ 1 2 (by decide) (by decide) (by decide) (by decide)
    (by decide) (by decide) (by decide)
    (by
      intro t1 h
      have he : (⟨Config.default, [⟨1, 1⟩, ⟨2, 1⟩], 2, 2⟩ :
            TDigest).compress_merge =
          some ⟨Config.default, [⟨1, 1⟩, ⟨2, 1⟩], 2, 0⟩ := by decide
      rw [he] at h
      obtain rfl := Option.some.inj h
      decide)

/-!
## The batch decomposition of `compress_brute`
-/

/-- The batches cut by `compress_brute`: each batch head eats the next
`n - 1` entries of the vector. -/
def chunksOf (n : Nat) : List Centroid → List (List Centroid)
  | [] => []
  | c :: cs => (c :: cs.take (n - 1)) :: chunksOf n (cs.drop (n - 1))
termination_by l => l.length
decreasing_by
  simp only [List.length_drop, List.length_cons]
  omega

/-- The batch accumulator of `compress_brute`: fold the incremental
`l_mean += r.count * (r.mean - l_mean) / l_count` update and the weight sum
over the eaten entries, starting from the batch head. -/
def batchAcc (lm : F) (lc : Nat) : List Centroid → F × Nat
  | [] => (lm, lc)
  | r :: rest =>
    batchAcc
      (if F.fne r.mean lm then
          lm + (r.count : F) * (r.mean - lm) / ((lc + r.count : Nat) : F)
        else lm)
      (lc + r.count) rest

theorem batchAcc_cons (lm : F) (lc : Nat) (r : Centroid)
    (rest : List Centroid) :
    batchAcc lm lc (r :: rest) =
      batchAcc
        (if F.fne r.mean lm then
            lm + (r.count : F) * (r.mean - lm) / ((lc + r.count : Nat) : F)
          else lm)
        (lc + r.count) rest := rfl

theorem batchAcc_count (xs : List Centroid) : ∀ (lm : F) (lc : Nat),
    (batchAcc lm lc xs).2 = lc + wsum xs := by
  induction xs with
  | nil => intro lm lc; simp [batchAcc]
  | cons r xs ih =>
    intro lm lc
    rw [batchAcc_cons, ih]
    simp only [wsum_cons]
    omega

/-- What one batch contributes to the recomputed total: its full weight,
unless its accumulated mean is NaN, in which case nothing. -/
def batchContrib (b : List Centroid) : Nat :=
  match b with
  | [] => 0
  | c :: cs => if (batchAcc c.mean c.count cs).1.isNaN = true then 0 else wsum (c :: cs)

/-- The count written back by `compress_brute` from the loop's final state:
the trailing batch is added unless its accumulated mean is NaN. -/
def finalCount (s : BruteState) : Nat :=
  if !s.l_mean.isNaN then s.sum + s.l_count else s.sum

theorem bruteLoop_nil (bsz : Nat) (s : BruteState) :
    bruteLoop bsz s [] = s := rfl

theorem bruteLoop_cons_eq (bsz : Nat) (s : BruteState) (r : Centroid)
    (rest : List Centroid) :
    bruteLoop bsz s (r :: rest) =
      if s.batch_pos < bsz - 1 then
        bruteLoop bsz
          { s with
            l_mean :=
              if F.fne r.mean s.l_mean then
                s.l_mean + (r.count : F) * (r.mean - s.l_mean) /
                  ((s.l_count + r.count : Nat) : F)
              else s.l_mean,
            l_count := s.l_count + r.count,
            eaten := s.eaten ++ [r],
            batch_pos := s.batch_pos + 1 } rest
      else
        if !s.l_mean.isNaN then
          bruteLoop bsz
            { done := s.done ++ ⟨s.l_mean, s.l_count⟩ :: s.eaten.map zeroed,
              sum := s.sum + s.l_count,
              l_mean := r.mean,
              l_count := r.count,
              eaten := [],
              batch_pos := 0 } rest
        else
          bruteLoop bsz
            { done := s.done ++ ⟨s.l_mean, 0⟩ :: s.eaten.map zeroed,
              sum := s.sum,
              l_mean := r.mean,
              l_count := r.count,
              eaten := [],
              batch_pos := 0 } rest := rfl

/-- While the batch still has capacity, the sweep folds the entries into the
batch accumulator one by one. -/
theorem bruteLoop_eat (bsz : Nat) :
    ∀ (xs rest d e : List Centroid) (sm : Nat) (lm : F) (lc bp : Nat),
      bp + xs.length ≤ bsz - 1 →
      bruteLoop bsz ⟨d, sm, lm, lc, e, bp⟩ (xs ++ rest) =
        bruteLoop bsz
          ⟨d, sm, (batchAcc lm lc xs).1, (batchAcc lm lc xs).2,
           e ++ xs, bp + xs.length⟩ rest := by
  intro xs
  induction xs with
  | nil =>
    intro rest d e sm lm lc bp h
    simp [batchAcc]
  | cons r xs ih =>
    intro rest d e sm lm lc bp h
    rw [List.cons_append, bruteLoop_cons_eq]
    rw [if_pos (by dsimp only; simp only [List.length_cons] at h; omega)]
    dsimp only
    rw [ih rest d (e ++ [r]) sm _ _ (bp + 1)
      (by simp only [List.length_cons] at h; omega)]
    rw [batchAcc_cons]
    congr 1
    simp only [BruteState.mk.injEq, List.append_assoc, List.singleton_append,
      List.length_cons, true_and, and_true]
    omega

/-- The sweep's final count is the starting running total plus the
contribution of every batch: its full weight if its accumulated mean is
non-NaN, nothing otherwise. -/
theorem bruteLoop_count (bsz : Nat) :
    ∀ (fuel : Nat) (rest : List Centroid), rest.length ≤ fuel →
      ∀ (c : Centroid) (d e : List Centroid) (sm : Nat),
        finalCount (bruteLoop bsz ⟨d, sm, c.mean, c.count, e, 0⟩ rest) =
          sm + ((chunksOf bsz (c :: rest)).map batchContrib).sum := by
  intro fuel
  induction fuel with
  | zero =>
    intro rest h c d e sm
    have hnil : rest = [] := List.length_eq_zero.mp (Nat.le_zero.mp h)
    subst hnil
    rw [bruteLoop_nil, finalCount]
    simp only [chunksOf, List.take_nil, List.drop_nil, List.map_cons,
      List.map_nil, List.sum_cons, List.sum_nil]
    rw [batchContrib]
    try dsimp only
    cases hnan : c.mean.isNaN with
    | true => simp [hnan, batchAcc]
    | false => simp [hnan, batchAcc, wsum]
  | succ n ih =>
    intro rest h c d e sm
    have hsplit : rest.take (bsz - 1) ++ rest.drop (bsz - 1) = rest :=
      List.take_append_drop _ _
    conv_lhs => rw [← hsplit]
    rw [bruteLoop_eat bsz _ _ _ _ _ _ _ _
      (by simp only [Nat.zero_add, List.length_take]; omega)]
    rw [chunksOf.eq_def]
    rcases hrest2 : rest.drop (bsz - 1) with _ | ⟨r, rest3⟩
    · -- the sweep ends inside the final batch
      rw [bruteLoop_nil, finalCount]
      dsimp only
      simp only [chunksOf, List.map_cons, List.map_nil, List.sum_cons,
        List.sum_nil]
      rw [batchContrib, batchAcc_count]
      cases hnan : (batchAcc c.mean c.count (rest.take (bsz - 1))).1.isNaN with
      | true => simp [hnan, hrest2, chunksOf]
      | false => simp [hnan, hrest2, chunksOf, wsum_cons]
    · -- a full batch: finalize and recurse
      have hlen : (rest.take (bsz - 1)).length = bsz - 1 := by
        rw [List.length_take]
        have h2 := congrArg List.length hrest2
        rw [List.length_drop] at h2
        simp only [List.length_cons] at h2
        omega
      have hfuel : rest3.length ≤ n := by
        have h2 := congrArg List.length hrest2
        rw [List.length_drop] at h2
        simp only [List.length_cons] at h2
        omega
      rw [bruteLoop_cons_eq]
      rw [if_neg (by dsimp only; omega)]
      dsimp only
      rw [hrest2]
      simp only [List.map_cons, List.sum_cons]
      rw [batchContrib]
      cases hnan : (batchAcc c.mean c.count (rest.take (bsz - 1))).1.isNaN with
      | true =>
        simp only [hnan, Bool.not_true, Bool.false_eq_true, if_false,
          eq_self_iff_true, if_true]
        rw [ih rest3 hfuel r _ _ sm]
        omega
      | false =>
        simp only [hnan, Bool.not_false, if_true, Bool.false_eq_true,
          if_false]
        rw [ih rest3 hfuel r _ _ (sm + (batchAcc c.mean c.count
          (rest.take (bsz - 1))).2)]
        rw [batchAcc_count]
        simp only [wsum_cons]
        omega

theorem F.ne_nan_of_isNaN_false {x : F} (h : x.isNaN = false) : x ≠ F.nan := by
  intro hx
  rw [hx] at h
  exact absurd h (by simp [F.isNaN])

/-- Through the sweep, every slot written to `done` is either zeroed (and
will be dropped by the final `retain`) or carries a non-NaN mean, and every
slot left in `eaten` is an original centroid. -/
theorem bruteLoop_no_nan (bsz : Nat) :
    ∀ (rest : List Centroid) (s : BruteState),
      (∀ c ∈ s.done, c.count = 0 ∨ c.mean ≠ F.nan) →
      (∀ c ∈ s.eaten, c.mean ≠ F.nan) →
      (∀ c ∈ rest, c.mean ≠ F.nan) →
      (∀ c ∈ (bruteLoop bsz s rest).done, c.count = 0 ∨ c.mean ≠ F.nan) ∧
        (∀ c ∈ (bruteLoop bsz s rest).eaten, c.mean ≠ F.nan) := by
  intro rest
  induction rest with
  | nil =>
    intro s hd he _
    exact ⟨hd, he⟩
  | cons r rest ih =>
    intro s hd he hr
    rw [bruteLoop_cons_eq]
    split
    · refine ih _ hd ?_ (fun c hc => hr c (by simp [hc]))
      intro c hc
      dsimp only at hc
      rcases List.mem_append.mp hc with h | h
      · exact he c h
      · rw [List.mem_singleton.mp h]
        exact hr r (by simp)
    · split
      case isTrue hh =>
        refine ih _ ?_ (by intro c hc; simp at hc)
          (fun c hc => hr c (by simp [hc]))
        intro c hc
        dsimp only at hc
        rcases List.mem_append.mp hc with h | h
        · exact hd c h
        · rcases List.mem_cons.mp h with h | h
          · right
            rw [h]
            exact F.ne_nan_of_isNaN_false (by
              simp only [Bool.not_eq_true'] at hh
              exact hh)
          · left
            obtain ⟨c0, _, hcz⟩ := List.mem_map.mp h
            rw [← hcz]
            rfl
      case isFalse =>
        refine ih _ ?_ (by intro c hc; simp at hc)
          (fun c hc => hr c (by simp [hc]))
        intro c hc
        dsimp only at hc
        rcases List.mem_append.mp hc with h | h
        · exact hd c h
        · rcases List.mem_cons.mp h with h | h
          · left
            rw [h]
          · left
            obtain ⟨c0, _, hcz⟩ := List.mem_map.mp h
            rw [← hcz]
            rfl

set_option maxHeartbeats 800000 in
/-- **C4**: in the brute batch-cap phase (reached when more than
`max_centroids` centroids remain), the recomputed total counts each batch
whose accumulated mean is non-NaN at its full weight and counts a NaN batch
at nothing, and — for the NaN-free centroid vectors the API produces — no
NaN-mean centroid survives into the resulting sequence. -/
theorem c4_nan_batch_dropped (t : TDigest)
    (hmax : 1 ≤ t.config.max_centroids)
    (hlen : t.config.max_centroids < t.centroids.length)
    (hnn : ∀ c ∈ t.centroids, c.mean ≠ F.nan) :
    ∃ t1, t.compress_brute = some t1 ∧
      t1.count =
        ((chunksOf
            ((t.centroids.length + t.config.max_centroids - 1) /
              t.config.max_centroids) t.centroids).map batchContrib).sum ∧
      ∀ c ∈ t1.centroids, c.mean ≠ F.nan := by
  rcases hc : t.centroids with _ | ⟨l, rest⟩
  · rw [hc] at hlen
    simp at hlen
  · rw [hc] at hlen hnn
    unfold TDigest.compress_brute
    rw [hc]
    rw [if_neg (by omega), if_neg (by omega)]
    refine ⟨_, rfl, ?_, ?_⟩
    · -- the recomputed total
      try dsimp only
      have hfc := bruteLoop_count
        (((l :: rest).length + t.config.max_centroids - 1) /
          t.config.max_centroids) rest.length rest le_rfl l [] [] 0
      rw [finalCount] at hfc
      cases hnan : (bruteLoop
          (((l :: rest).length + t.config.max_centroids - 1) /
            t.config.max_centroids)
          ⟨[], 0, l.mean, l.count, [], 0⟩ rest).l_mean.isNaN with
      | true =>
        rw [hnan] at hfc
        simp only [hnan, Bool.not_true, Bool.false_eq_true, if_false] at hfc ⊢
        omega
      | false =>
        rw [hnan] at hfc
        simp only [hnan, Bool.not_false, if_true] at hfc ⊢
        omega
    · -- no NaN-mean survivor
      try dsimp only
      have hnn2 := bruteLoop_no_nan
        (((l :: rest).length + t.config.max_centroids - 1) /
          t.config.max_centroids) rest ⟨[], 0, l.mean, l.count, [], 0⟩
        (by intro c hcm; simp at hcm) (by intro c hcm; simp at hcm)
        (fun c hcm => hnn c (by simp [hcm]))
      intro c hcm
      have hsplit := List.mem_filter.mp hcm
      have hcnt : c.count ≠ 0 := by
        have h2 := hsplit.2
        simp only [ne_eq, decide_not, Bool.not_eq_true',
          decide_eq_false_iff_not] at h2
        exact h2
      have hmem := hsplit.1
      cases hnan : (bruteLoop
          (((l :: rest).length + t.config.max_centroids - 1) /
            t.config.max_centroids)
          ⟨[], 0, l.mean, l.count, [], 0⟩ rest).l_mean.isNaN with
      | true =>
        rw [hnan] at hmem
        simp only [Bool.not_true, Bool.false_eq_true, if_false] at hmem
        rcases List.mem_append.mp hmem with h | h
        · rcases hnn2.1 c h with h0 | h0
          · exact absurd h0 hcnt
          · exact h0
        · rcases List.mem_cons.mp h with h | h
          · exact absurd (by rw [h]) hcnt
          · exact hnn2.2 c h
      | false =>
        rw [hnan] at hmem
        simp only [Bool.not_false, if_true] at hmem
        rcases List.mem_append.mp hmem with h | h
        · rcases hnn2.1 c h with h0 | h0
          · exact absurd h0 hcnt
          · exact h0
        · rcases List.mem_cons.mp h with h | h
          · rw [h]
            exact F.ne_nan_of_isNaN_false hnan
          · exact hnn2.2 c h

theorem c4_nan_batch_dropped_witness :
    ∃ t1, (⟨⟨0.01, 1, 0⟩, [⟨F.negInf, 1⟩, ⟨F.posInf, 1⟩], 2, 0⟩ :
        TDigest).compress_brute = some t1 ∧
      t1.count =
        ((chunksOf 2 [(⟨F.negInf, 1⟩ : Centroid), ⟨F.posInf, 1⟩]).map
            batchContrib).sum ∧
      ∀ c ∈ t1.centroids, c.mean ≠ F.nan :=
  c4_nan_batch_dropped _ (by decide) (by decide) (by decide)
